import Mathlib

/-!
Verification of the caption pipeline of this repository.

The development shallowly embeds the pure core of the two Python modules:

* `src/app/main.py` — the captioner service: `ensure_relative_path`,
  `build_lines`, `format_timestamp`, `write_srt`, `parse_srt`,
  `derive_srt_url`, and the active-cue scan of `get_active_caption`.
* `src/main.py` — the DaVinci Resolve bridge: `build_lines_from_words`,
  `format_timestamp` (identical to the one above) and `write_srt_file`.

Modelling conventions:

* Python strings are `List Char`.  String helpers (`strip`, `split`,
  `replace`, `join`, regular-expression substitution on literal patterns)
  are modelled character by character; whitespace and digit classes are
  the ASCII ones, which covers every character the code itself produces.
* Python floats are modelled as exact rationals `ℚ`.  The only float
  arithmetic the embedded code performs is `round(seconds * 1000)` inside
  `format_timestamp`; it is computed exactly on `ℚ` (Python `round`, i.e.
  nearest integer with ties to even).  So that the definition evaluates
  inside the kernel, `round(q * 1000)` is computed from the reduced
  numerator and denominator of `q` without rational multiplication; the
  characterisation theorems below relate it back to `q * 1000`.
* Python ints are `ℤ`, and `divmod` with a positive divisor is `Int`
  division/modulo (`/` and `%` on `ℤ` are Euclidean division, which
  agrees with Python floor-divmod whenever the divisor is positive).
* Fallible code (`raise HTTPException`) is `Except` with the detail
  string as the error value.
* `list.sort` / `sorted` (Python Timsort, a stable ascending sort) is
  modelled with the stable structural `List.insertionSort`.
-/

/-! ## Python string helpers (`List Char` model) -/

/-- ASCII whitespace, the characters stripped by Python `str.strip()` and
matched by the regex class `\s` for the strings this code handles. -/
def pyIsSpace (c : Char) : Bool :=
  c == ' ' || c == '\t' || c == '\n' || c == '\r' || c == '\x0b' || c == '\x0c'

/-- Python `str.lstrip()`. -/
def pyLStrip (s : List Char) : List Char := s.dropWhile pyIsSpace

/-- Python `str.rstrip()`. -/
def pyRStrip (s : List Char) : List Char := (s.reverse.dropWhile pyIsSpace).reverse

/-- Python `str.strip()`. -/
def pyStrip (s : List Char) : List Char := pyLStrip (pyRStrip s)

/-- Python `str.lstrip(c)` / `str.rstrip(c)` for a single character set:
drop the character from both ends (used for `block.strip("\n")`). -/
def pyStripChar (c : Char) (s : List Char) : List Char :=
  ((s.dropWhile (· == c)).reverse.dropWhile (· == c)).reverse

/-- Python `str.split(sep)` on a one-character separator: splits at every
occurrence, keeping empty chunks. -/
def pySplitChar (sep : Char) : List Char → List (List Char)
  | [] => [[]]
  | c :: rest =>
    if c = sep then [] :: pySplitChar sep rest
    else
      match pySplitChar sep rest with
      | chunk :: chunks => (c :: chunk) :: chunks
      | [] => [[c]]

/-- Python `str.split(sep, maxsplit)` on a one-character separator. -/
def pySplitLimit (sep : Char) : Nat → List Char → List (List Char)
  | _, [] => [[]]
  | 0, c :: rest => [c :: rest]
  | m + 1, c :: rest =>
    if c = sep then [] :: pySplitLimit sep m rest
    else
      match pySplitLimit sep (m + 1) rest with
      | chunk :: chunks => (c :: chunk) :: chunks
      | [] => [[c]]

/-- Python `sep.join(parts)`. -/
def pyJoin (sep : List Char) (parts : List (List Char)) : List Char :=
  List.intercalate sep parts

/-- Python `str.replace("\r\n", "\n")`: leftmost, non-overlapping. -/
def pyReplaceCrlf : List Char → List Char
  | '\r' :: '\n' :: rest => '\n' :: pyReplaceCrlf rest
  | c :: rest => c :: pyReplaceCrlf rest
  | [] => []

/-- Python `str.replace("\r", "\n")`. -/
def pyReplaceCr : List Char → List Char
  | '\r' :: rest => '\n' :: pyReplaceCr rest
  | c :: rest => c :: pyReplaceCr rest
  | [] => []

/-- Python `str.lstrip("﻿")` (drop leading byte-order marks). -/
def bomStrip (s : List Char) : List Char := s.dropWhile (· == '﻿')

/-- ASCII decimal digit test (Python `str.isdigit` restricted to ASCII,
which is all the decoder ever sees from well-formed SRT). -/
def pyIsDigitStr (s : List Char) : Bool := s ≠ [] && s.all Char.isDigit

/-- Numeric value of a string of ASCII digits (Python `int(s)` for the
non-negative digit strings this code converts). -/
def digitsToNat (s : List Char) : Nat :=
  s.foldl (fun acc c => 10 * acc + (c.toNat - 48)) 0

/-- Python `int(s)` as used on regex-matched digit groups. -/
def pyIntOf (s : List Char) : ℤ := (digitsToNat s : ℤ)

/-- The ASCII digit character of a value `< 10`. -/
def digitChar (n : Nat) : Char := Char.ofNat (48 + n)

/-- Decimal digits of a natural number (no sign, no padding); the fuel
argument makes the recursion structural so the kernel can evaluate it. -/
def natToDigitsAux : Nat → Nat → List Char → List Char
  | 0, _, acc => acc
  | fuel + 1, n, acc =>
    if n < 10 then digitChar n :: acc
    else natToDigitsAux fuel (n / 10) (digitChar (n % 10) :: acc)

/-- Decimal representation of a natural number, e.g. `Python str(n)`. -/
def natToDigits (n : Nat) : List Char := natToDigitsAux (n + 1) n []

/-- Left-pad with `'0'` to the requested width. -/
def zeroPad (width : Nat) (s : List Char) : List Char :=
  List.replicate (width - s.length) '0' ++ s

/-- Python `f"{i:0w}"` — zero-padded decimal of an integer (a minus sign
counts towards the width, as in Python). -/
def intPad (width : Nat) (i : ℤ) : List Char :=
  if i < 0 then '-' :: zeroPad (width - 1) (natToDigits i.natAbs)
  else zeroPad width (natToDigits i.toNat)

/-! ## `format_timestamp` (`src/app/main.py` lines 246-251, identical in
`src/main.py` lines 246-253) -/

/-- Rounding of the exact rational `a / b` (with `b > 0`) to the nearest
integer, ties to even: the semantics of Python `round`. -/
def roundHalfEvenPair (a : ℤ) (b : ℤ) : ℤ :=
  let f := a / b
  let r := a % b
  if 2 * r < b then f
  else if b < 2 * r then f + 1
  else if f % 2 = 0 then f else f + 1

/-- `int(round(seconds * 1000))`: Python `round` (nearest, ties to even)
of `seconds * 1000`, computed exactly on the rational `seconds`.  The
product is formed on the numerator so that the definition evaluates in
the kernel; `pyRoundTimes1000_spec` below characterises it against
`seconds * 1000` itself. -/
def pyRoundTimes1000 (seconds : ℚ) : ℤ :=
  roundHalfEvenPair (seconds.num * 1000) (seconds.den : ℤ)

/-- `format_timestamp(seconds)`: round to total milliseconds, then
`divmod` into hours / minutes / seconds / milliseconds and render as
`HH:MM:SS,mmm` (hour field grows beyond two digits, no wraparound). -/
def format_timestamp (seconds : ℚ) : List Char :=
  let total_ms := pyRoundTimes1000 seconds
  let hrs := total_ms / 3600000
  let rem := total_ms % 3600000
  let mins := rem / 60000
  let rem2 := rem % 60000
  let secs := rem2 / 1000
  let ms := rem2 % 1000
  intPad 2 hrs ++ ':' :: intPad 2 mins ++ ':' :: intPad 2 secs ++ ',' :: intPad 3 ms

/-! ## `build_lines` (`src/app/main.py` lines 208-234) -/

/-- A transcribed word record: `{"text": ..., "start": ..., "end": ...}`.
The `end` key is named `stop` here because `end` is a Lean keyword. -/
structure Word where
  text : List Char
  start : ℚ
  stop : ℚ
deriving DecidableEq

/-- A caption line record `{"text": ..., "start": ..., "end": ...}` as
built by `build_lines` and consumed by `write_srt`. -/
structure SrtLine where
  text : List Char
  start : ℚ
  stop : ℚ
deriving DecidableEq

/-- Closing the accumulator of `build_lines`: join the (already stripped)
word texts with single spaces and take the first word's start and the
last word's end.  The empty case is unreachable (the source only emits a
non-empty accumulator; `current[-1].get("end", ...)` has its default
elided because every accumulated record carries both keys). -/
def emitLine (current : List Word) : SrtLine :=
  match current with
  | [] => ⟨[], 0, 0⟩
  | w :: _ =>
    { text := pyStrip (pyJoin [' '] (current.map Word.text))
      start := w.start
      stop := (current.getLast?.map Word.stop).getD w.start }

/-- The word loop of `build_lines`: `current` is the accumulator of
already-stripped, non-empty words.  The source empties `current` and then
appends the new word after an overflow; that is written here as
restarting the accumulator at `[w]`. -/
def build_lines_loop (max_chars : ℤ) : List Word → List Word → List SrtLine
  | [], current => if current = [] then [] else [emitLine current]
  | w :: rest, current =>
    let text := pyStrip w.text
    if text = [] then build_lines_loop max_chars rest current
    else
      let tentative := pyStrip (pyJoin [' '] ((current.map Word.text) ++ [text]))
      if current ≠ [] ∧ max_chars < (tentative.length : ℤ) then
        emitLine current :: build_lines_loop max_chars rest [⟨text, w.start, w.stop⟩]
      else build_lines_loop max_chars rest (current ++ [⟨text, w.start, w.stop⟩])

/-- `build_lines(words, max_chars)` groups words into caption lines
respecting `max_chars`. -/
def build_lines (words : List Word) (max_chars : ℤ) : List SrtLine :=
  build_lines_loop max_chars words []

/-! ## `write_srt` (`src/app/main.py` lines 254-263) -/

/-- The timing line of an SRT block: `f"{start} --> {end}"`. -/
def tsLine (line : SrtLine) : List Char :=
  format_timestamp line.start
    ++ ' ' :: '-' :: '-' :: '>' :: ' ' :: format_timestamp line.stop

/-- An SRT block without its trailing blank-line separator:
`f"{idx}\n{start} --> {end}\n{text}"`. -/
def srtBlockCore (idx : Nat) (line : SrtLine) : List Char :=
  natToDigits idx ++ '\n' :: tsLine line ++ '\n' :: pyStrip line.text

/-- One SRT block as written by the loop body of `write_srt`:
`f"{idx}\n{start} --> {end}\n{text}\n\n"`. -/
def srtBlock (idx : Nat) (line : SrtLine) : List Char :=
  srtBlockCore idx line ++ '\n' :: '\n' :: []

/-- The full text written by `write_srt(lines, path)` (the file content;
blocks are emitted in input order with 1-based indices). -/
def write_srt_text (lines : List SrtLine) : List Char :=
  (lines.enum.map (fun p => srtBlock (p.1 + 1) p.2)).flatten

/-! ## `parse_srt` (`src/app/main.py` lines 314-357) -/

/-- A decoded SRT cue `{"startMs": ..., "endMs": ..., "text": ...}`. -/
structure Cue where
  startMs : ℤ
  endMs : ℤ
  text : List Char
deriving DecidableEq

/-- One step (right to left) of `re.split(r"\n{2,}", text)`: the state is
`(pending, current, blocks)` where `pending` counts newlines seen
immediately to the right of the cursor, `current` is the block being
assembled and `blocks` the completed blocks further right.  A run of two
or more pending newlines is a separator; a single one belongs to the
block. -/
def sbrStep (c : Char) (st : Nat × List Char × List (List Char)) :
    Nat × List Char × List (List Char) :=
  let (pending, current, blocks) := st
  if c = '\n' then (pending + 1, current, blocks)
  else if 2 ≤ pending then (0, [c], current :: blocks)
  else if pending = 1 then (0, c :: '\n' :: current, blocks)
  else (0, c :: current, blocks)

/-- Resolve newlines pending at the very start of the document. -/
def sbrFinish (st : Nat × List Char × List (List Char)) : List (List Char) :=
  let (pending, current, blocks) := st
  if 2 ≤ pending then [] :: current :: blocks
  else if pending = 1 then ('\n' :: current) :: blocks
  else current :: blocks

/-- `re.split(r"\n{2,}", text)`: split on maximal runs of two or more
newlines. -/
def splitBlankRuns (s : List Char) : List (List Char) :=
  sbrFinish (s.foldr sbrStep (0, [], []))

/-- Match a run of exactly `n` ASCII digits, returning the digit group
and the remaining input. -/
def matchDigits (n : Nat) (s : List Char) : Option (List Char × List Char) :=
  let pre := s.take n
  if pre.length = n && pre.all Char.isDigit then some (pre, s.drop n) else none

/-- Match one literal character. -/
def matchLit (c : Char) : List Char → Option (List Char)
  | x :: rest => if x = c then some rest else none
  | [] => none

/-- Match one `\d{2}:\d{2}:\d{2},\d{3}` timestamp group, returning the
matched 12 characters and the remaining input. -/
def matchTsGroup (s : List Char) : Option (List Char × List Char) := do
  let (d1, r1) ← matchDigits 2 s
  let r2 ← matchLit ':' r1
  let (d2, r3) ← matchDigits 2 r2
  let r4 ← matchLit ':' r3
  let (d3, r5) ← matchDigits 2 r4
  let r6 ← matchLit ',' r5
  let (d4, r7) ← matchDigits 3 r6
  some (d1 ++ ':' :: d2 ++ ':' :: d3 ++ ',' :: d4, r7)

/-- `ts_pattern.match(timing_line)` for the anchored pattern
`^(\d{2}:\d{2}:\d{2},\d{3})\s*-->\s*(\d{2}:\d{2}:\d{2},\d{3})`: a prefix
match returning the two timestamp groups (trailing input is ignored, as
with `re.match` without `$`). -/
def tsPatternMatch (s : List Char) : Option (List Char × List Char) := do
  let (g1, r1) ← matchTsGroup s
  let r2 := r1.dropWhile pyIsSpace
  let r3 ← matchLit '-' r2
  let r4 ← matchLit '-' r3
  let r5 ← matchLit '>' r4
  let r6 := r5.dropWhile pyIsSpace
  let (g2, _) ← matchTsGroup r6
  some (g1, g2)

/-- `to_ms(timestamp)`: split `HH:MM:SS,mmm` on `:` (twice) and `,`
(once) and combine.  The fallback `0` arms are unreachable on the
regex-matched groups this is applied to (Python would raise there). -/
def to_ms (timestamp : List Char) : ℤ :=
  match pySplitLimit ':' 2 timestamp with
  | [hh, mm, ss_ms] =>
    match pySplitLimit ',' 1 ss_ms with
    | [ss, ms] => (((pyIntOf hh) * 60 + pyIntOf mm) * 60 + pyIntOf ss) * 1000 + pyIntOf ms
    | _ => 0
  | _ => 0

/-- The per-block body of the `parse_srt` loop: an optional all-digits
index line, a timing line that must match the timestamp pattern, and the
remaining non-blank lines (right-stripped) joined with `"\n"` as the cue
text.  `none` models `continue`. -/
def parseBlock (block : List Char) : Option Cue :=
  match pySplitChar '\n' block with
  | [] => none
  | l0 :: restLines =>
    let idx_line := pyStrip l0
    let has_index := pyIsDigitStr idx_line
    let timing_line :=
      if has_index ∧ restLines ≠ [] then pyStrip (restLines.headD []) else pyStrip l0
    match tsPatternMatch timing_line with
    | none => none
    | some (g1, g2) =>
      let start_ms := to_ms g1
      let end_ms := to_ms g2
      let text_start : Nat := if has_index then 2 else 1
      let caption_lines :=
        (((l0 :: restLines).drop text_start).filter (fun l => pyStrip l ≠ [])).map pyRStrip
      some ⟨start_ms, end_ms, pyJoin ['\n'] caption_lines⟩

/-- The normalisation prefix of `parse_srt`: strip a leading BOM, map
`\r\n` and `\r` to `\n`, and strip surrounding whitespace. -/
def parse_srt_normalize (s : List Char) : List Char :=
  pyStrip (pyReplaceCr (pyReplaceCrlf (bomStrip s)))

/-- The `blocks` list of `parse_srt`: split on blank-line runs, keep the
non-blank chunks, and strip framing newlines from each. -/
def parse_srt_blocks (text : List Char) : List (List Char) :=
  ((splitBlankRuns text).filter (fun b => pyStrip b ≠ [])).map (pyStripChar '\n')

/-- The cue list accumulated by the `parse_srt` loop, before the final
sort. -/
def parse_srt_cues (text : List Char) : List Cue :=
  (parse_srt_blocks text).filterMap parseBlock

/-- `parse_srt(srt_text)`: normalise, split into blocks, parse each, and
stably sort the cues ascending by `startMs` (`list.sort(key=...)`). -/
def parse_srt (srt_text : List Char) : List Cue :=
  if srt_text = [] then []
  else
    let text := parse_srt_normalize srt_text
    if text = [] then []
    else (parse_srt_cues text).insertionSort (fun a b => a.startMs ≤ b.startMs)

/-! ## `derive_srt_url` (`src/app/main.py` lines 287-311)

`urlparse` / `urlunparse` are Python standard library collaborators; a
URL is modelled as the parsed six-tuple, and `derive_srt_url` operates on
it exactly as the source operates on the parse result. -/

deriving instance DecidableEq for Except

/-- The result of `urllib.parse.urlparse`. -/
structure Url where
  scheme : List Char
  netloc : List Char
  path : List Char
  params : List Char
  query : List Char
  fragment : List Char
deriving DecidableEq

/-- `SUPPORTED_VIDEO_SUFFIXES` (`src/app/main.py` line 42). -/
def SUPPORTED_VIDEO_SUFFIXES : List (List Char) :=
  [".mp4".toList, ".mov".toList, ".mkv".toList, ".m4v".toList, ".avi".toList]

/-- Case-insensitive character comparison (ASCII case folding, the
fragment of `re.IGNORECASE` exercised by the literal patterns here). -/
def charCI (a b : Char) : Bool := a.toLower == b.toLower

/-- Case-insensitive "is a prefix of". -/
def startsWithCI : List Char → List Char → Bool
  | [], _ => true
  | _ :: _, [] => false
  | p :: ps, c :: cs => charCI p c && startsWithCI ps cs

/-- Case-insensitive "is a suffix of". -/
def endsWithCI (pat s : List Char) : Bool := startsWithCI pat.reverse s.reverse

/-- `re.sub(pattern, repl, s, flags=re.IGNORECASE)` for a literal,
non-empty pattern: replace every occurrence, scanning left to right
without overlap.  The fuel argument keeps the recursion structural;
`s.length` steps always suffice since every step consumes at least one
character. -/
def subAllCIFuel (pat repl : List Char) : Nat → List Char → List Char
  | 0, s => s
  | _ + 1, [] => []
  | fuel + 1, c :: rest =>
    if pat ≠ [] ∧ startsWithCI pat (c :: rest) = true then
      repl ++ subAllCIFuel pat repl fuel (List.drop (pat.length - 1) rest)
    else c :: subAllCIFuel pat repl fuel rest

/-- `re.sub` on a literal pattern, case-insensitive, all occurrences. -/
def subAllCI (pat repl s : List Char) : List Char :=
  subAllCIFuel pat repl s.length s

/-- `re.sub(rf"{re.escape(suffix)}$", repl, s, flags=re.IGNORECASE)`: the
anchored pattern replaces the suffix occurrence at the end of the string.
(Python `$` would also match just before a trailing newline, but the
call sites only reach this after `suffix` — which never contains a
newline — was computed as the tail of `s` itself, so that case cannot
fire.) -/
def reSubSuffixCI (pat repl s : List Char) : List Char :=
  if endsWithCI pat s then s.take (s.length - pat.length) ++ repl else s

/-- `PurePosixPath(path).name`: the last path component, after pathlib
drops empty and `"."` components. -/
def pathName (path : List Char) : List Char :=
  (((pySplitChar '/' path).filter (fun seg => seg ≠ [] ∧ seg ≠ ['.'])).getLast?).getD []

/-- `PurePosixPath(path).suffix`: `name[i:]` for the last `'.'` at
position `i` with `0 < i < len(name) - 1`, else the empty string. -/
def pathSuffix (path : List Char) : List Char :=
  let name := pathName path
  let tail := name.reverse.takeWhile (· ≠ '.')
  if tail.length + 1 < name.length ∧ 0 < tail.length then
    name.drop (name.length - tail.length - 1)
  else []

/-- Python `str.lower()` (ASCII case folding). -/
def pyLower (s : List Char) : List Char := s.map Char.toLower

/-- Mode string `"side_by_side"`. -/
def modeSideBySide : List Char := "side_by_side".toList

/-- Mode string `"captions_dir"`. -/
def modeCaptionsDir : List Char := "captions_dir".toList

/-- Pattern `"/ingest/originals/"`. -/
def patIngestOriginals : List Char := "/ingest/originals/".toList

/-- Pattern `"/ingest/"`. -/
def patIngest : List Char := "/ingest/".toList

/-- Replacement `"/captions/"`. -/
def replCaptions : List Char := "/captions/".toList

/-- Replacement `".srt"`. -/
def srtSuffix : List Char := ".srt".toList

/-- `derive_srt_url(media_url, mode)` on the parsed URL: strip query and
fragment, validate the lower-cased path suffix against the allow-list,
then rewrite the path according to the mode.  Errors carry the
`HTTPException` detail text. -/
def derive_srt_url (u : Url) (mode : List Char) : Except (List Char) Url :=
  let clean : Url := { u with query := [], fragment := [] }
  let path := clean.path
  let suffix := pyLower (pathSuffix path)
  if SUPPORTED_VIDEO_SUFFIXES.contains suffix = false then
    .error ("Unsupported media extension: ".toList ++ suffix)
  else if mode = modeSideBySide then
    .ok { clean with path := reSubSuffixCI suffix srtSuffix path }
  else if mode = modeCaptionsDir then
    let p1 := subAllCI patIngestOriginals replCaptions path
    let p2 := subAllCI patIngest replCaptions p1
    .ok { clean with path := reSubSuffixCI suffix srtSuffix p2 }
  else .error ("Unknown SRT map mode: ".toList ++ mode)

/-! ## `ensure_relative_path` (`src/app/main.py` lines 80-97) -/

/-- `PurePosixPath.is_absolute()`: the raw string begins with `/`. -/
def posixIsAbs : List Char → Bool
  | c :: _ => c = '/'
  | [] => false

/-- `PurePosixPath(s).parts` for a relative path: pathlib splits on `/`
and drops empty and `"."` components.  (For an absolute path pathlib
prepends a root part, but `ensure_relative_path` rejects absolute input
before looking at parts.) -/
def posixParts (s : List Char) : List (List Char) :=
  (pySplitChar '/' s).filter (fun seg => seg ≠ [] ∧ seg ≠ ['.'])

/-- `ensure_relative_path(rel_path)`: reject blank input, absolute paths
and any (post-normalisation) part equal to `".."` or `""`; return the
validated path (as its parts) otherwise.  Errors carry the
`HTTPException` detail text. -/
def ensure_relative_path (rel_path : List Char) : Except (List Char) (List (List Char)) :=
  if pyStrip rel_path = [] then .error ("Path is required".toList)
  else if posixIsAbs rel_path then .error ("Absolute paths are not allowed".toList)
  else if (posixParts rel_path).any (fun part => part = ['.', '.'] ∨ part = []) then
    .error ("Path traversal is not allowed".toList)
  else .ok (posixParts rel_path)

/-! ## Active-cue lookup (`src/app/main.py` lines 590-607)

The `get_active_caption` endpoint scans the decoded cues in order and
returns the first one covering `t_ms`; the fall-through response with
empty text is modelled as `none`. -/

/-- The cue scan of `get_active_caption`. -/
def get_active_caption_lookup (cues : List Cue) (t_ms : ℤ) : Option Cue :=
  match cues with
  | [] => none
  | cue :: rest =>
    if cue.startMs ≤ t_ms ∧ t_ms ≤ cue.endMs then some cue
    else get_active_caption_lookup rest t_ms

/-! ## The DaVinci Resolve bridge (`src/main.py`) -/

/-- `WordPayload`: a timed word from Resolve or manual input. -/
structure WordPayload where
  text : List Char
  startTime : ℚ
  endTime : ℚ
  startFrame : Option ℤ := none
  endFrame : Option ℤ := none
deriving DecidableEq

/-- `LinePayload`: a caption line with timing and optional word list. -/
structure LinePayload where
  text : List Char
  startTime : ℚ
  endTime : ℚ
  words : Option (List WordPayload) := none
deriving DecidableEq

/-- Closing the accumulator of `build_lines_from_words`: space-joined
text, first word's `startTime`, last word's `endTime`, and the word list
itself.  The empty case is unreachable (only non-empty accumulators are
emitted). -/
def mkLinePayload (current : List WordPayload) : LinePayload :=
  match current with
  | [] => ⟨[], 0, 0, some []⟩
  | w :: _ =>
    { text := pyJoin [' '] (current.map WordPayload.text)
      startTime := w.startTime
      endTime := ((current.getLast?).map WordPayload.endTime).getD w.startTime
      words := some current }

/-- The word loop of `build_lines_from_words` (`src/main.py` lines
210-243).  The source appends the word to the accumulator through an
`if not current_line` whose two branches are identical; a full line is
emitted as soon as the accumulator reaches `words_per_line`. -/
def build_lines_from_words_loop (words_per_line : ℤ) :
    List WordPayload → List WordPayload → List LinePayload
  | [], current => if current = [] then [] else [mkLinePayload current]
  | w :: rest, current =>
    let current2 := if current.isEmpty then current ++ [w] else current ++ [w]
    if words_per_line ≤ (current2.length : ℤ) then
      mkLinePayload current2 :: build_lines_from_words_loop words_per_line rest []
    else build_lines_from_words_loop words_per_line rest current2

/-- `build_lines_from_words(words, words_per_line)`. -/
def build_lines_from_words (words : List WordPayload) (words_per_line : ℤ) :
    List LinePayload :=
  build_lines_from_words_loop words_per_line words []

/-- The text written by `write_srt_file(lines, file_name)` (`src/main.py`
lines 256-272): lines are first sorted ascending by `startTime`
(`sorted(...)`, a stable sort), then each contributes four entries —
index, timing line, text, empty string — and the entries are joined with
`"\n"`. -/
def write_srt_file_text (lines : List LinePayload) : List Char :=
  let sortedLines := lines.insertionSort (fun a b => a.startTime ≤ b.startTime)
  pyJoin ['\n']
    ((sortedLines.enum.map (fun p =>
      [natToDigits (p.1 + 1),
       format_timestamp p.2.startTime ++ ' ' :: '-' :: '-' :: '>' :: ' ' :: format_timestamp p.2.endTime,
       p.2.text,
       []])).flatten)

/-! ## Claim C4 — path safety of `ensure_relative_path` -/

/-- Membership of `".."` in the filtered parts is membership in the raw
`'/'`-split segments, and the dead `part = ""` arm never fires. -/
theorem posixParts_any_traversal_iff (s : List Char) :
    ((posixParts s).any (fun part => part = ['.', '.'] ∨ part = []) = true) ↔
      ['.', '.'] ∈ pySplitChar '/' s := by
  simp only [posixParts, List.any_eq_true, List.mem_filter, decide_eq_true_eq]
  constructor
  · rintro ⟨part, ⟨hmem, hne, -⟩, hor⟩
    rcases hor with h | h
    · exact h ▸ hmem
    · exact absurd h hne
  · intro hmem
    exact ⟨['.', '.'], ⟨hmem, by decide, by decide⟩, Or.inl rfl⟩

/-- C4 (counterexample): the claim says a path segment equal to `"."`
triggers a validation error, but `pathlib` normalises `"."` segments away
before the check, so `ensure_relative_path("a/./b")` succeeds. -/
theorem ensure_relative_path_accepts_dot_segment :
    ensure_relative_path ("a/./b".toList) = Except.ok ["a".toList, "b".toList] ∧
      ['.'] ∈ pySplitChar '/' ("a/./b".toList) := by
  exact ⟨by decide, by decide⟩

/-- C4 (amended): `ensure_relative_path` raises a validation error if and
only if the input is blank, an absolute path, or contains a `".."`
segment.  Segments equal to `"."` or `""` are removed by `pathlib`
normalisation before the check and never cause rejection (the function
itself performs no filesystem access). -/
theorem ensure_relative_path_error_iff (s : List Char) :
    (∃ e, ensure_relative_path s = Except.error e) ↔
      (pyStrip s = [] ∨ posixIsAbs s = true ∨ ['.', '.'] ∈ pySplitChar '/' s) := by
  unfold ensure_relative_path
  split_ifs with h1 h2 h3
  · exact iff_of_true ⟨_, rfl⟩ (Or.inl h1)
  · exact iff_of_true ⟨_, rfl⟩ (Or.inr (Or.inl h2))
  · exact iff_of_true ⟨_, rfl⟩
      (Or.inr (Or.inr ((posixParts_any_traversal_iff s).1 h3)))
  · have hne := fun hmem => h3 ((posixParts_any_traversal_iff s).2 hmem)
    constructor
    · rintro ⟨e, he⟩
      exact he.elim
    · rintro (h | h | h)
      · exact absurd h h1
      · exact absurd h h2
      · exact absurd h hne

/-! ## Claim C8 — active-cue lookup -/

/-- `startMs ≤ t_ms ≤ endMs`. -/
def cueCovers (c : Cue) (t_ms : ℤ) : Prop := c.startMs ≤ t_ms ∧ t_ms ≤ c.endMs

instance (c : Cue) (t : ℤ) : Decidable (cueCovers c t) := by
  unfold cueCovers; infer_instance

/-- The scan returns `some c` exactly when `c` is the first covering cue
in list order. -/
theorem get_active_caption_lookup_some_iff (cues : List Cue) (t_ms : ℤ) (c : Cue) :
    get_active_caption_lookup cues t_ms = some c ↔
      ∃ l1 l2, cues = l1 ++ c :: l2 ∧ cueCovers c t_ms ∧ ∀ b ∈ l1, ¬cueCovers b t_ms := by
  induction cues with
  | nil =>
    simp [get_active_caption_lookup]
  | cons c0 rest ih =>
    unfold get_active_caption_lookup
    by_cases h0 : cueCovers c0 t_ms
    · rw [if_pos ⟨h0.1, h0.2⟩]
      constructor
      · intro hsome
        obtain rfl : c0 = c := Option.some.inj hsome
        exact ⟨[], rest, rfl, h0, by intro b hb; cases hb⟩
      · rintro ⟨l1, l2, hdec, hcov, hfirst⟩
        rcases l1 with _ | ⟨b, l1'⟩
        · rw [List.nil_append] at hdec
          obtain ⟨rfl, -⟩ := List.cons.inj hdec
          rfl
        · have hb : b = c0 := (List.cons.inj hdec).1.symm
          exact absurd h0 (hb ▸ hfirst b (List.mem_cons_self b l1'))
    · rw [if_neg (by exact fun hc => h0 ⟨hc.1, hc.2⟩)]
      rw [ih]
      constructor
      · rintro ⟨l1, l2, rfl, hcov, hfirst⟩
        refine ⟨c0 :: l1, l2, rfl, hcov, ?_⟩
        intro b hb
        rcases List.mem_cons.1 hb with rfl | hb'
        · exact h0
        · exact hfirst b hb'
      · rintro ⟨l1, l2, hdec, hcov, hfirst⟩
        rcases l1 with _ | ⟨b, l1'⟩
        · obtain ⟨rfl, -⟩ := List.cons.inj hdec
          exact absurd hcov h0
        · obtain ⟨-, hrest⟩ := List.cons.inj hdec
          exact ⟨l1', l2, hrest, hcov, fun b' hb' => hfirst b' (List.mem_cons_of_mem _ hb')⟩

/-- The scan returns `none` exactly when no cue covers the timestamp. -/
theorem get_active_caption_lookup_none_iff (cues : List Cue) (t_ms : ℤ) :
    get_active_caption_lookup cues t_ms = none ↔ ∀ c ∈ cues, ¬cueCovers c t_ms := by
  induction cues with
  | nil => simp [get_active_caption_lookup]
  | cons c0 rest ih =>
    unfold get_active_caption_lookup
    by_cases h0 : cueCovers c0 t_ms
    · rw [if_pos ⟨h0.1, h0.2⟩]
      constructor
      · exact fun h => absurd h (Option.some_ne_none c0)
      · exact fun hall => absurd h0 (hall c0 (List.mem_cons_self c0 rest))
    · rw [if_neg (by exact fun hc => h0 ⟨hc.1, hc.2⟩), ih]
      constructor
      · intro hall c hc
        rcases List.mem_cons.1 hc with rfl | hc'
        · exact h0
        · exact hall c hc'
      · intro hall c hc
        exact hall c (List.mem_cons_of_mem _ hc)

/-- C8: for a cue list sorted ascending by `startMs` and a timestamp
`t_ms ≥ 0`, the scan of `get_active_caption` returns the first cue (in
list order) whose span covers `t_ms`, and `none` when no cue covers it;
on the cue list `[(0,1000,"Hello"), (2000,3000,"World")]` it yields
`"Hello"` at 500, `none` at 1500 and `"World"` at 2500. -/
theorem get_active_caption_first_match :
    (∀ (cues : List Cue) (t_ms : ℤ),
      List.Pairwise (fun a b => a.startMs ≤ b.startMs) cues → 0 ≤ t_ms →
        (∀ c : Cue, get_active_caption_lookup cues t_ms = some c ↔
            ∃ l1 l2, cues = l1 ++ c :: l2 ∧ cueCovers c t_ms ∧ ∀ b ∈ l1, ¬cueCovers b t_ms) ∧
        (get_active_caption_lookup cues t_ms = none ↔ ∀ c ∈ cues, ¬cueCovers c t_ms)) ∧
    get_active_caption_lookup [⟨0, 1000, "Hello".toList⟩, ⟨2000, 3000, "World".toList⟩] 500
      = some ⟨0, 1000, "Hello".toList⟩ ∧
    get_active_caption_lookup [⟨0, 1000, "Hello".toList⟩, ⟨2000, 3000, "World".toList⟩] 1500
      = none ∧
    get_active_caption_lookup [⟨0, 1000, "Hello".toList⟩, ⟨2000, 3000, "World".toList⟩] 2500
      = some ⟨2000, 3000, "World".toList⟩ := by
  refine ⟨fun cues t_ms _ _ => ⟨fun c => ?_, ?_⟩, by decide, by decide, by decide⟩
  · exact get_active_caption_lookup_some_iff cues t_ms c
  · exact get_active_caption_lookup_none_iff cues t_ms

/-- C8 (witness): the general part of `get_active_caption_first_match`
instantiated at the example cue list and `t_ms = 1500`. -/
theorem get_active_caption_first_match_witness :
    get_active_caption_lookup [⟨0, 1000, "Hello".toList⟩, ⟨2000, 3000, "World".toList⟩] 1500
      = none ↔
      ∀ c ∈ ([⟨0, 1000, "Hello".toList⟩, ⟨2000, 3000, "World".toList⟩] : List Cue),
        ¬cueCovers c 1500 :=
  (get_active_caption_first_match.1
    [⟨0, 1000, "Hello".toList⟩, ⟨2000, 3000, "World".toList⟩] 1500
    (by decide) (by decide)).2

/-! ## Claim C9 — `build_lines_from_words` partitions the words -/

/-- The emitted line carries exactly the accumulated words. -/
theorem mkLinePayload_words (cur : List WordPayload) :
    (mkLinePayload cur).words.getD [] = cur := by
  cases cur <;> rfl

/-- The emitted line's text is the space-join of its words' texts. -/
theorem mkLinePayload_text (cur : List WordPayload) :
    (mkLinePayload cur).text = pyJoin [' '] (cur.map WordPayload.text) := by
  cases cur <;> rfl

/-- Loop invariant for `build_lines_from_words`: starting from an
accumulator shorter than `words_per_line`, the emitted lines' word lists
concatenate to accumulator ++ input, all lines but the last hold exactly
`words_per_line` words, and every line's text is the space-join of its
words. -/
theorem build_lines_from_words_loop_spec (wpl : ℤ) (hwpl : 1 ≤ wpl) :
    ∀ (ws current : List WordPayload), ((current.length : ℤ) < wpl) →
      (((build_lines_from_words_loop wpl ws current).map (fun l => l.words.getD [])).flatten
          = current ++ ws)
      ∧ (∀ l ∈ (build_lines_from_words_loop wpl ws current).dropLast,
          ((l.words.getD []).length : ℤ) = wpl)
      ∧ (∀ l ∈ build_lines_from_words_loop wpl ws current,
          l.text = pyJoin [' '] ((l.words.getD []).map WordPayload.text)) := by
  intro ws
  induction ws with
  | nil =>
    intro current hcur
    by_cases hc : current = []
    · subst hc
      simp [build_lines_from_words_loop]
    · simp only [build_lines_from_words_loop, if_neg hc]
      refine ⟨by simp [mkLinePayload_words], by simp, ?_⟩
      intro l hl
      rcases List.mem_singleton.1 hl with rfl
      rw [mkLinePayload_text, mkLinePayload_words]
  | cons w rest ih =>
    intro current hcur
    have hcur2 : (if current.isEmpty then current ++ [w] else current ++ [w]) = current ++ [w] :=
      ite_self _
    by_cases hle : wpl ≤ (((current ++ [w]).length : ℤ))
    · have hexact : (((current ++ [w]).length : ℤ)) = wpl := by
        simp only [List.length_append, List.length_singleton] at hle ⊢
        push_cast at hle ⊢
        omega
      have hstep : build_lines_from_words_loop wpl (w :: rest) current
          = mkLinePayload (current ++ [w]) :: build_lines_from_words_loop wpl rest [] := by
        rw [build_lines_from_words_loop, hcur2, if_pos (le_of_eq hexact.symm)]
      obtain ⟨ihflat, ihlast, ihtext⟩ := ih [] (by simpa using hwpl)
      rw [hstep]
      refine ⟨?_, ?_, ?_⟩
      · simp only [List.map_cons, List.flatten_cons, mkLinePayload_words, ihflat]
        simp
      · intro l hl
        rcases hloop : build_lines_from_words_loop wpl rest [] with _ | ⟨x, xs⟩
        · rw [hloop] at hl
          simp at hl
        · rw [hloop] at hl
          rw [List.dropLast_cons_of_ne_nil (by simp)] at hl
          rcases List.mem_cons.1 hl with rfl | hl'
          · rw [mkLinePayload_words]; exact hexact
          · exact ihlast l (hloop ▸ hl')
      · intro l hl
        rcases List.mem_cons.1 hl with rfl | hl'
        · rw [mkLinePayload_text, mkLinePayload_words]
        · exact ihtext l hl'
    · have hlt : (((current ++ [w]).length : ℤ)) < wpl := lt_of_not_le hle
      have hstep : build_lines_from_words_loop wpl (w :: rest) current
          = build_lines_from_words_loop wpl rest (current ++ [w]) := by
        rw [build_lines_from_words_loop, hcur2, if_neg hle]
      obtain ⟨ihflat, ihlast, ihtext⟩ := ih (current ++ [w]) hlt
      rw [hstep]
      exact ⟨by rw [ihflat]; simp, ihlast, ihtext⟩

/-- C9: for every word list and `wordsPerLine ≥ 1`,
`build_lines_from_words` partitions the input: the lines' word lists
concatenate back to the input (no word dropped, duplicated or filtered),
every line except possibly the last holds exactly `wordsPerLine` words,
and each line's text is the single-space join of its words' texts. -/
theorem build_lines_from_words_partition (words : List WordPayload) (wpl : ℤ)
    (hwpl : 1 ≤ wpl) :
    (((build_lines_from_words words wpl).map (fun l => l.words.getD [])).flatten = words)
    ∧ (∀ l ∈ (build_lines_from_words words wpl).dropLast,
        ((l.words.getD []).length : ℤ) = wpl)
    ∧ (∀ l ∈ build_lines_from_words words wpl,
        l.text = pyJoin [' '] ((l.words.getD []).map WordPayload.text)) := by
  have h := build_lines_from_words_loop_spec wpl hwpl words [] (by simpa using hwpl)
  simpa [build_lines_from_words] using h

/-- C9 (witness): the partition property instantiated on three concrete
words with `wordsPerLine = 2`. -/
theorem build_lines_from_words_partition_witness :
    (1 : ℤ) ≤ 2 ∧
    ((((build_lines_from_words
        [⟨"a".toList, 0, 1, none, none⟩, ⟨"b".toList, 1, 2, none, none⟩,
         ⟨"c".toList, 2, 3, none, none⟩] 2).map (fun l => l.words.getD [])).flatten
        = [⟨"a".toList, 0, 1, none, none⟩, ⟨"b".toList, 1, 2, none, none⟩,
           ⟨"c".toList, 2, 3, none, none⟩])
      ∧ (∀ l ∈ (build_lines_from_words
          [⟨"a".toList, 0, 1, none, none⟩, ⟨"b".toList, 1, 2, none, none⟩,
           ⟨"c".toList, 2, 3, none, none⟩] 2).dropLast,
          ((l.words.getD []).length : ℤ) = 2)
      ∧ (∀ l ∈ build_lines_from_words
          [⟨"a".toList, 0, 1, none, none⟩, ⟨"b".toList, 1, 2, none, none⟩,
           ⟨"c".toList, 2, 3, none, none⟩] 2,
          l.text = pyJoin [' '] ((l.words.getD []).map WordPayload.text))) :=
  ⟨by decide,
   build_lines_from_words_partition
     [⟨"a".toList, 0, 1, none, none⟩, ⟨"b".toList, 1, 2, none, none⟩,
      ⟨"c".toList, 2, 3, none, none⟩] 2 (by decide)⟩

/-! ## Strip lemmas shared by the line-builder and codec proofs -/

/-- `pyRStrip` is Mathlib's `rdropWhile`. -/
theorem pyRStrip_eq_rdropWhile (s : List Char) :
    pyRStrip s = List.rdropWhile pyIsSpace s := rfl

/-- The head surviving a `dropWhile` fails the predicate. -/
theorem dropWhile_cons_head {p : Char → Bool} {c : Char} {r : List Char} :
    ∀ s : List Char, s.dropWhile p = c :: r → p c = false := by
  intro s
  induction s with
  | nil => intro h; cases h
  | cons a t ih =>
    intro h
    rw [List.dropWhile_cons] at h
    split_ifs at h with ha
    · exact ih h
    · obtain ⟨rfl, -⟩ := List.cons.inj h
      exact Bool.eq_false_iff.2 ha

/-- The head surviving a `dropWhile` fails the predicate (`head?` form). -/
theorem dropWhile_head?_false {p : Char → Bool} {l : List Char} {d : Char}
    (h : (l.dropWhile p).head? = some d) : p d = false := by
  rcases hdw : l.dropWhile p with _ | ⟨c, r⟩
  · rw [hdw] at h; cases h
  · rw [hdw] at h
    obtain rfl : c = d := Option.some.inj (by simpa using h)
    exact dropWhile_cons_head _ hdw

/-- A non-empty suffix determines the last element. -/
theorem getLast?_of_suffix {l1 l2 : List Char} (h : l1 <:+ l2) (hne : l1 ≠ []) :
    l2.getLast? = l1.getLast? := by
  obtain ⟨u, rfl⟩ := h
  rw [List.getLast?_append]
  rcases hl : l1.getLast? with _ | d
  · rw [List.getLast?_eq_getLast l1 hne] at hl; cases hl
  · rfl

/-- The last character surviving `rstrip()` is non-whitespace. -/
theorem pyRStrip_last_false {s : List Char} {d : Char}
    (h : (pyRStrip s).getLast? = some d) : pyIsSpace d = false := by
  rw [pyRStrip, List.getLast?_reverse] at h
  exact dropWhile_head?_false h

/-- The last character surviving `strip()` is non-whitespace. -/
theorem pyStrip_getLast?_false {s : List Char} {d : Char}
    (h : (pyStrip s).getLast? = some d) : pyIsSpace d = false := by
  have hne : pyStrip s ≠ [] := by intro h0; rw [h0] at h; cases h
  have hsfx : pyStrip s <:+ pyRStrip s := List.dropWhile_suffix _
  have heq := getLast?_of_suffix hsfx hne
  exact pyRStrip_last_false (by rw [heq, h])

/-- A non-empty `strip()` result has a non-whitespace head and a
non-whitespace last character. -/
theorem pyStrip_ends (s : List Char) (hne : pyStrip s ≠ []) :
    ∃ c d, (pyStrip s).head? = some c ∧ pyIsSpace c = false ∧
      (pyStrip s).getLast? = some d ∧ pyIsSpace d = false := by
  rcases hh : (pyStrip s).head? with _ | c
  · rw [List.head?_eq_none_iff] at hh; exact absurd hh hne
  · rcases hl : (pyStrip s).getLast? with _ | d
    · rw [List.getLast?_eq_none_iff] at hl; exact absurd hl hne
    · exact ⟨c, d, rfl, dropWhile_head?_false hh, rfl, pyStrip_getLast?_false hl⟩

/-- A string whose first and last characters are non-whitespace is fixed
by `strip()`. -/
theorem pyStrip_eq_self_of_ends {s : List Char} {c d : Char}
    (hh : s.head? = some c) (hc : pyIsSpace c = false)
    (hl : s.getLast? = some d) (hd : pyIsSpace d = false) :
    pyStrip s = s := by
  have hr : pyRStrip s = s := by
    rw [pyRStrip]
    have hrev2 : s.reverse.dropWhile pyIsSpace = s.reverse := by
      rcases hrev : s.reverse with _ | ⟨a, t⟩
      · rfl
      · have ha : a = d := by
          have h2 := List.head?_reverse s
          rw [hrev, hl] at h2
          exact Option.some.inj h2
        exact List.dropWhile_cons_of_neg (by rw [ha, hd]; simp)
    rw [hrev2, List.reverse_reverse]
  rw [pyStrip, hr, pyLStrip]
  rcases s with _ | ⟨a, t⟩
  · rfl
  · obtain rfl : a = c := Option.some.inj (by simpa using hh)
    exact List.dropWhile_cons_of_neg (by rw [hc]; simp)

/-- `strip()` of a string with a non-whitespace head is non-empty. -/
theorem pyStrip_ne_nil_of_head {s : List Char} {c : Char}
    (hh : s.head? = some c) (hc : pyIsSpace c = false) : pyStrip s ≠ [] := by
  rcases s with _ | ⟨a, t⟩
  · cases hh
  · obtain rfl : a = c := Option.some.inj (by simpa using hh)
    have hrne : pyRStrip (a :: t) ≠ [] := by
      rw [pyRStrip_eq_rdropWhile, Ne, List.rdropWhile_eq_nil_iff]
      intro hall
      have h1 := hall a (List.mem_cons_self a t)
      rw [hc] at h1
      cases h1
    obtain ⟨u, hu⟩ := List.rdropWhile_prefix pyIsSpace (a :: t)
    rw [← pyRStrip_eq_rdropWhile] at hu
    rcases hp : pyRStrip (a :: t) with _ | ⟨b, v⟩
    · exact absurd hp hrne
    · rw [hp] at hu
      obtain ⟨rfl, -⟩ := List.cons.inj hu
      rw [pyStrip, hp, pyLStrip, List.dropWhile_cons_of_neg (by rw [hc]; simp)]
      simp

/-- `strip()` is idempotent. -/
theorem pyStrip_idem (s : List Char) : pyStrip (pyStrip s) = pyStrip s := by
  by_cases h : pyStrip s = []
  · rw [h]; rfl
  · obtain ⟨c, d, hh, hc, hl, hd⟩ := pyStrip_ends s h
    exact pyStrip_eq_self_of_ends hh hc hl hd


/-! ## Claim C2 — `build_lines` character budget -/

/-- The text of a non-empty accumulator's emitted line. -/
theorem emitLine_text {cur : List Word} (h : cur ≠ []) :
    (emitLine cur).text = pyStrip (pyJoin [' '] (cur.map Word.text)) := by
  rcases cur with _ | ⟨v, rest⟩
  · exact absurd rfl h
  · rfl

/-- A single-word accumulator emits exactly that word's stripped text. -/
theorem emitLine_singleton (v : Word) : (emitLine [v]).text = pyStrip v.text := by
  rw [emitLine_text (by simp)]
  simp [pyJoin, List.intercalate]

/-- A space-join starts with its first part. -/
theorem pyJoin_cons_exists (sep t : List Char) (ts : List (List Char)) :
    ∃ r, pyJoin sep (t :: ts) = t ++ r := by
  rcases ts with _ | ⟨t2, ts'⟩
  · exact ⟨[], by simp [pyJoin, List.intercalate]⟩
  · refine ⟨sep ++ List.intercalate sep (t2 :: ts'), ?_⟩
    simp [pyJoin, List.intercalate, List.intersperse_cons_cons]

/-- The emitted line of an accumulator of stripped non-empty words has
non-empty text. -/
theorem emitLine_text_ne_nil {cur : List Word} (hne : cur ≠ [])
    (hall : ∀ v ∈ cur, v.text ≠ [] ∧ pyStrip v.text = v.text) :
    (emitLine cur).text ≠ [] := by
  rcases cur with _ | ⟨v, rest⟩
  · exact absurd rfl hne
  · obtain ⟨hv1, hv2⟩ := hall v (List.mem_cons_self v rest)
    have hvs : pyStrip v.text ≠ [] := by rw [hv2]; exact hv1
    obtain ⟨c, d, hh, hc, -, -⟩ := pyStrip_ends v.text hvs
    rw [hv2] at hh
    obtain ⟨r, hr⟩ := pyJoin_cons_exists [' '] v.text (rest.map Word.text)
    rw [emitLine_text hne, List.map_cons, hr]
    refine pyStrip_ne_nil_of_head (c := c) ?_ hc
    rw [List.head?_append, hh]
    rfl

/-- Loop invariant for `build_lines`: if the accumulator holds stripped
non-empty word texts drawn from `words` and its pending line is within
budget or a single word, then every emitted line has non-empty text and
is within budget or equal to one stripped source word. -/
theorem build_lines_loop_spec (max_chars : ℤ) (words : List Word) :
    ∀ (ws current : List Word),
      (∀ v ∈ current, v.text ≠ [] ∧ pyStrip v.text = v.text ∧
        ∃ w ∈ words, v.text = pyStrip w.text) →
      (current ≠ [] →
        (((emitLine current).text.length : ℤ) ≤ max_chars ∨ ∃ v, current = [v])) →
      (∀ x ∈ ws, x ∈ words) →
      ∀ l ∈ build_lines_loop max_chars ws current,
        l.text ≠ [] ∧
          ((l.text.length : ℤ) ≤ max_chars ∨ ∃ w ∈ words, l.text = pyStrip w.text) := by
  have emitted : ∀ current : List Word,
      (∀ v ∈ current, v.text ≠ [] ∧ pyStrip v.text = v.text ∧
        ∃ w ∈ words, v.text = pyStrip w.text) →
      (current ≠ [] →
        (((emitLine current).text.length : ℤ) ≤ max_chars ∨ ∃ v, current = [v])) →
      current ≠ [] →
      (emitLine current).text ≠ [] ∧
        (((emitLine current).text.length : ℤ) ≤ max_chars ∨
          ∃ w ∈ words, (emitLine current).text = pyStrip w.text) := by
    intro current h1 h2 hne
    refine ⟨emitLine_text_ne_nil hne (fun v hv => ⟨(h1 v hv).1, (h1 v hv).2.1⟩), ?_⟩
    rcases h2 hne with hle | ⟨v, rfl⟩
    · exact Or.inl hle
    · obtain ⟨-, hv2, w, hw, hvw⟩ := h1 v (List.mem_cons_self v [])
      refine Or.inr ⟨w, hw, ?_⟩
      rw [emitLine_singleton, hv2, hvw]
  intro ws
  induction ws with
  | nil =>
    intro current h1 h2 _ l hl
    by_cases hc : current = []
    · subst hc
      simp [build_lines_loop] at hl
    · rw [build_lines_loop, if_neg hc] at hl
      rcases List.mem_singleton.1 hl with rfl
      exact emitted current h1 h2 hc
  | cons w rest ih =>
    intro current h1 h2 hws l hl
    have hwmem : w ∈ words := hws w (List.mem_cons_self w rest)
    have hws' : ∀ x ∈ rest, x ∈ words := fun x hx => hws x (List.mem_cons_of_mem _ hx)
    rw [build_lines_loop] at hl
    by_cases htext : pyStrip w.text = []
    · rw [if_pos htext] at hl
      exact ih current h1 h2 hws' l hl
    · rw [if_neg htext] at hl
      have hvprops : (⟨pyStrip w.text, w.start, w.stop⟩ : Word).text ≠ [] ∧
          pyStrip (⟨pyStrip w.text, w.start, w.stop⟩ : Word).text
            = (⟨pyStrip w.text, w.start, w.stop⟩ : Word).text ∧
          ∃ w' ∈ words, (⟨pyStrip w.text, w.start, w.stop⟩ : Word).text = pyStrip w'.text :=
        ⟨htext, pyStrip_idem w.text, w, hwmem, rfl⟩
      by_cases hover : current ≠ [] ∧
          max_chars < ((pyStrip (pyJoin [' '] ((current.map Word.text)
            ++ [pyStrip w.text]))).length : ℤ)
      · rw [if_pos hover] at hl
        rcases List.mem_cons.1 hl with rfl | hl'
        · exact emitted current h1 h2 hover.1
        · refine ih [⟨pyStrip w.text, w.start, w.stop⟩] ?_ ?_ hws' l hl'
          · intro v hv
            rcases List.mem_singleton.1 hv with rfl
            exact hvprops
          · exact fun _ => Or.inr ⟨_, rfl⟩
      · rw [if_neg hover] at hl
        refine ih (current ++ [⟨pyStrip w.text, w.start, w.stop⟩]) ?_ ?_ hws' l hl
        · intro v hv
          rcases List.mem_append.1 hv with hv' | hv'
          · exact h1 v hv'
          · rcases List.mem_singleton.1 hv' with rfl
            exact hvprops
        · intro _
          by_cases hc : current = []
          · subst hc
            exact Or.inr ⟨_, rfl⟩
          · left
            have hlen : ¬ max_chars < ((pyStrip (pyJoin [' '] ((current.map Word.text)
                ++ [pyStrip w.text]))).length : ℤ) := fun h => hover ⟨hc, h⟩
            rw [emitLine_text (by simp), List.map_append]
            exact le_of_not_lt hlen

/-- C2: for every word sequence and `maxChars ≥ 1`, every line emitted by
`build_lines` has non-empty text, and its text either fits the character
budget or is exactly one (stripped) source word — an over-long single
word is never split. -/
theorem build_lines_char_budget (words : List Word) (max_chars : ℤ)
    (_hmax : 1 ≤ max_chars) :
    ∀ l ∈ build_lines words max_chars,
      l.text ≠ [] ∧
        ((l.text.length : ℤ) ≤ max_chars ∨ ∃ w ∈ words, l.text = pyStrip w.text) := by
  intro l hl
  exact build_lines_loop_spec max_chars words words []
    (by intro v hv; cases hv)
    (by intro h; exact absurd rfl h)
    (fun x hx => hx) l hl

/-- C2 (witness): the budget property instantiated on an over-long word
followed by a short one, with `maxChars = 3`. -/
theorem build_lines_char_budget_witness :
    (1 : ℤ) ≤ 3 ∧
    ∀ l ∈ build_lines [⟨"abcdefghij".toList, 0, 1⟩, ⟨"x".toList, 1, 2⟩] 3,
      l.text ≠ [] ∧
        ((l.text.length : ℤ) ≤ 3 ∨
          ∃ w ∈ ([⟨"abcdefghij".toList, 0, 1⟩, ⟨"x".toList, 1, 2⟩] : List Word),
            l.text = pyStrip w.text) :=
  ⟨by decide,
   build_lines_char_budget [⟨"abcdefghij".toList, 0, 1⟩, ⟨"x".toList, 1, 2⟩] 3 (by decide)⟩

/-! ## Claim C7 — decoded cue well-formedness -/

/-- `to_ms` always yields a non-negative number of milliseconds. -/
theorem to_ms_nonneg (t : List Char) : 0 ≤ to_ms t := by
  unfold to_ms
  split
  · split
    · simp only [pyIntOf]
      omega
    · exact le_refl 0
  · exact le_refl 0

/-- A successfully parsed block yields non-negative start and end. -/
theorem parseBlock_nonneg {b : List Char} {c : Cue} (h : parseBlock b = some c) :
    0 ≤ c.startMs ∧ 0 ≤ c.endMs := by
  unfold parseBlock at h
  split at h
  · cases h
  · dsimp only at h
    split at h
    · cases h
    · obtain rfl := Option.some.inj h
      exact ⟨to_ms_nonneg _, to_ms_nonneg _⟩

/-- Every decoded cue comes from some block. -/
theorem parse_srt_cue_from_block {s : List Char} {c : Cue} (h : c ∈ parse_srt s) :
    ∃ b, parseBlock b = some c := by
  unfold parse_srt at h
  by_cases h1 : s = []
  · rw [if_pos h1] at h; cases h
  · rw [if_neg h1] at h
    dsimp only at h
    by_cases h2 : parse_srt_normalize s = []
    · rw [if_pos h2] at h; cases h
    · rw [if_neg h2] at h
      have h3 := (List.perm_insertionSort (fun a b : Cue => a.startMs ≤ b.startMs)
        (parse_srt_cues (parse_srt_normalize s))).mem_iff.1 h
      obtain ⟨b, -, hb⟩ := List.mem_filterMap.1 h3
      exact ⟨b, hb⟩

/-- C7 (counterexample): the decoder performs no cross-field validation,
so a block whose end timestamp precedes its start is decoded as-is and
the resulting cue violates `endMs ≥ startMs`. -/
theorem parse_srt_reversed_timestamps :
    parse_srt ("1\n00:00:05,000 --> 00:00:01,000\nX".toList)
      = [⟨5000, 1000, "X".toList⟩] ∧ ¬((5000 : ℤ) ≤ 1000) :=
  ⟨by decide, by decide⟩

/-- C7 (amended): every cue returned by `parse_srt` satisfies
`startMs ≥ 0` and `endMs ≥ 0` (the timestamp fields are parsed from
digit groups), but `endMs ≥ startMs` is not guaranteed. -/
theorem parse_srt_cue_nonneg :
    ∀ (s : List Char), ∀ c ∈ parse_srt s, 0 ≤ c.startMs ∧ 0 ≤ c.endMs := by
  intro s c h
  obtain ⟨b, hb⟩ := parse_srt_cue_from_block h
  exact parseBlock_nonneg hb

/-- C7 (witness): the amended invariant instantiated on a concrete
document and its decoded cue. -/
theorem parse_srt_cue_nonneg_witness :
    (⟨0, 1000, "Hello".toList⟩ : Cue) ∈
        parse_srt ("1\n00:00:00,000 --> 00:00:01,000\nHello\n".toList) ∧
      (0 : ℤ) ≤ (0 : ℤ) ∧ (0 : ℤ) ≤ (1000 : ℤ) :=
  ⟨by decide,
   parse_srt_cue_nonneg ("1\n00:00:00,000 --> 00:00:01,000\nHello\n".toList)
     ⟨0, 1000, "Hello".toList⟩ (by decide)⟩

/-! ## Claim C5 — timestamp formatting and rounding -/

/-- `roundHalfEvenPair a b` (with `b > 0`) is within half of `a / b`, and
lands on an even integer at exact ties: the nearest-ties-to-even
characterisation of Python `round`. -/
theorem roundHalfEvenPair_spec (a b : ℤ) (hb : 0 < b) :
    |(a : ℚ) / (b : ℚ) - (roundHalfEvenPair a b : ℚ)| ≤ 1 / 2 ∧
      (|(a : ℚ) / (b : ℚ) - (roundHalfEvenPair a b : ℚ)| = 1 / 2 →
        roundHalfEvenPair a b % 2 = 0) := by
  have hf := Int.ediv_add_emod a b
  have hr0 : 0 ≤ a % b := Int.emod_nonneg a (ne_of_gt hb)
  have hrb : a % b < b := Int.emod_lt_of_pos a hb
  have hbQ : (0 : ℚ) < (b : ℚ) := by exact_mod_cast hb
  have hbne : (b : ℚ) ≠ 0 := ne_of_gt hbQ
  have hfQ : (b : ℚ) * ((a / b : ℤ) : ℚ) + ((a % b : ℤ) : ℚ) = (a : ℚ) := by
    exact_mod_cast hf
  have hr0Q : (0 : ℚ) ≤ ((a % b : ℤ) : ℚ) := by exact_mod_cast hr0
  have hrbQ : ((a % b : ℤ) : ℚ) < (b : ℚ) := by exact_mod_cast hrb
  have hdiff : (a : ℚ) / (b : ℚ) - ((a / b : ℤ) : ℚ) = ((a % b : ℤ) : ℚ) / (b : ℚ) := by
    field_simp
    linarith [hfQ]
  have hratio0 : (0 : ℚ) ≤ ((a % b : ℤ) : ℚ) / (b : ℚ) := div_nonneg hr0Q (le_of_lt hbQ)
  unfold roundHalfEvenPair
  dsimp only
  split_ifs with h1 h2 h3
  · have h1Q : 2 * ((a % b : ℤ) : ℚ) < (b : ℚ) := by exact_mod_cast h1
    have hlt : ((a % b : ℤ) : ℚ) / (b : ℚ) < 1 / 2 := by
      rw [div_lt_div_iff₀ hbQ (by norm_num)]
      linarith
    rw [hdiff, abs_of_nonneg hratio0]
    exact ⟨le_of_lt hlt, fun heq => absurd heq (ne_of_lt hlt)⟩
  · have h2Q : (b : ℚ) < 2 * ((a % b : ℤ) : ℚ) := by exact_mod_cast h2
    have hgt : 1 / 2 < ((a % b : ℤ) : ℚ) / (b : ℚ) := by
      rw [div_lt_div_iff₀ (by norm_num) hbQ]
      linarith
    have hle1 : ((a % b : ℤ) : ℚ) / (b : ℚ) < 1 := by
      rw [div_lt_one hbQ]
      exact hrbQ
    have hd2 : (a : ℚ) / (b : ℚ) - ((a / b + 1 : ℤ) : ℚ)
        = ((a % b : ℤ) : ℚ) / (b : ℚ) - 1 := by
      push_cast
      push_cast at hdiff
      linarith
    rw [hd2, abs_of_nonpos (by linarith), neg_sub]
    constructor
    · linarith
    · intro heq
      exfalso
      linarith
  · have heqb : 2 * (a % b) = b := by omega
    have heq2 : ((a % b : ℤ) : ℚ) / (b : ℚ) = 1 / 2 := by
      rw [div_eq_div_iff hbne (by norm_num : (2:ℚ) ≠ 0)]
      have : (2 : ℚ) * ((a % b : ℤ) : ℚ) = (b : ℚ) := by exact_mod_cast heqb
      linarith
    rw [hdiff, heq2, abs_of_nonneg (by norm_num)]
    exact ⟨le_refl _, fun _ => h3⟩
  · have heqb : 2 * (a % b) = b := by omega
    have heq2 : ((a % b : ℤ) : ℚ) / (b : ℚ) = 1 / 2 := by
      rw [div_eq_div_iff hbne (by norm_num : (2:ℚ) ≠ 0)]
      have : (2 : ℚ) * ((a % b : ℤ) : ℚ) = (b : ℚ) := by exact_mod_cast heqb
      linarith
    have hd2 : (a : ℚ) / (b : ℚ) - ((a / b + 1 : ℤ) : ℚ)
        = ((a % b : ℤ) : ℚ) / (b : ℚ) - 1 := by
      push_cast
      push_cast at hdiff
      linarith
    rw [hd2, heq2]
    norm_num
    generalize a / b = d at h3 ⊢
    constructor
    · rw [abs_of_nonneg (by norm_num : (0:ℚ) ≤ 1/2)]
    · omega

/-- `pyRoundTimes1000 q` is Python `round(q * 1000)`: the nearest integer
to `q * 1000`, ties to even. -/
theorem pyRoundTimes1000_spec (q : ℚ) :
    |q * 1000 - (pyRoundTimes1000 q : ℚ)| ≤ 1 / 2 ∧
      (|q * 1000 - (pyRoundTimes1000 q : ℚ)| = 1 / 2 → pyRoundTimes1000 q % 2 = 0) := by
  have hden : (0 : ℤ) < (q.den : ℤ) := by exact_mod_cast q.den_pos
  have h := roundHalfEvenPair_spec (q.num * 1000) (q.den : ℤ) hden
  have hq : ((q.num * 1000 : ℤ) : ℚ) / ((q.den : ℤ) : ℚ) = q * 1000 := by
    push_cast
    rw [mul_div_right_comm, Rat.num_div_den]
  rw [hq] at h
  exact h

/-- When `q` is an exact number of milliseconds (its denominator divides
1000), `pyRoundTimes1000 q` is exactly `q * 1000`. -/
theorem pyRoundTimes1000_exact {q : ℚ} (h : 1000 % q.den = 0) :
    ((pyRoundTimes1000 q : ℤ) : ℚ) = q * 1000 := by
  have h1 := (pyRoundTimes1000_spec q).1
  have hden_ne : ((q.den : ℕ) : ℚ) ≠ 0 := by
    exact_mod_cast Nat.pos_iff_ne_zero.1 q.den_pos
  have hdvd : (q.den : ℤ) ∣ q.num * 1000 :=
    Dvd.dvd.mul_left (Int.natCast_dvd_natCast.2 (Nat.dvd_of_mod_eq_zero h)) q.num
  have hint : ∃ k : ℤ, q * 1000 = (k : ℚ) := by
    obtain ⟨k, hk⟩ := hdvd
    refine ⟨k, ?_⟩
    have hq : ((q.num * 1000 : ℤ) : ℚ) / ((q.den : ℤ) : ℚ) = q * 1000 := by
      push_cast
      rw [mul_div_right_comm, Rat.num_div_den]
    rw [← hq, hk]
    push_cast
    rw [mul_comm, mul_div_assoc, div_self hden_ne, mul_one]
  obtain ⟨k, hk⟩ := hint
  rw [hk] at h1 ⊢
  have hcast : ((k - pyRoundTimes1000 q : ℤ) : ℚ) = (k : ℚ) - (pyRoundTimes1000 q : ℚ) := by
    push_cast; ring
  rw [← hcast, ← Int.cast_abs] at h1
  have habs : |k - pyRoundTimes1000 q| ≤ 0 := by
    by_contra hc
    push_neg at hc
    have h2 : (1 : ℤ) ≤ |k - pyRoundTimes1000 q| := hc
    have h3 : ((1 : ℤ) : ℚ) ≤ ((|k - pyRoundTimes1000 q| : ℤ) : ℚ) := by exact_mod_cast h2
    rw [Int.cast_one] at h3
    linarith
  have h0 : |k - pyRoundTimes1000 q| = 0 := le_antisymm habs (abs_nonneg _)
  have h4 := abs_eq_zero.1 h0
  have h5 : k = pyRoundTimes1000 q := by omega
  rw [h5]

/-- `intPad` of a natural number is plain zero-padding. -/
theorem intPad_natCast (w : Nat) (k : Nat) :
    intPad w ((k : ℕ) : ℤ) = zeroPad w (natToDigits k) := by
  unfold intPad
  rw [if_neg (by omega)]
  norm_num

/-- C5 (amended): for every non-negative seconds value, `format_timestamp`
rounds to the nearest millisecond with ties to even (Python `round`,
banker's rounding — not half-up), then decomposes the total without
wraparound into hours/minutes/seconds/milliseconds rendered as
zero-padded `HH:MM:SS,mmm`, the hour field growing beyond two digits. -/
theorem format_timestamp_decomposition (q : ℚ) (hq : 0 ≤ q) :
    ∃ H M S ms : ℕ, M < 60 ∧ S < 60 ∧ ms < 1000 ∧
      pyRoundTimes1000 q = ((H * 3600000 + M * 60000 + S * 1000 + ms : ℕ) : ℤ) ∧
      H = (pyRoundTimes1000 q).toNat / 3600000 ∧
      |q * 1000 - (pyRoundTimes1000 q : ℚ)| ≤ 1 / 2 ∧
      (|q * 1000 - (pyRoundTimes1000 q : ℚ)| = 1 / 2 → pyRoundTimes1000 q % 2 = 0) ∧
      format_timestamp q =
        zeroPad 2 (natToDigits H) ++ ':' :: zeroPad 2 (natToDigits M) ++ ':'
          :: zeroPad 2 (natToDigits S) ++ ',' :: zeroPad 3 (natToDigits ms) := by
  obtain ⟨hnear, htie⟩ := pyRoundTimes1000_spec q
  have hq1000 : (0 : ℚ) ≤ q * 1000 := by positivity
  have ht0 : 0 ≤ pyRoundTimes1000 q := by
    by_contra hc
    push_neg at hc
    have h2 : pyRoundTimes1000 q ≤ -1 := by omega
    have h3 : ((pyRoundTimes1000 q : ℤ) : ℚ) ≤ -1 := by exact_mod_cast h2
    have h4 : q * 1000 - (pyRoundTimes1000 q : ℚ) ≤ 1 / 2 := le_of_abs_le hnear
    linarith
  set t := pyRoundTimes1000 q with hts
  refine ⟨t.toNat / 3600000, t.toNat % 3600000 / 60000,
    t.toNat % 3600000 % 60000 / 1000, t.toNat % 3600000 % 60000 % 1000,
    by omega, by omega, by omega, by omega, rfl, hnear, htie, ?_⟩
  have h1 : t / 3600000 = ((t.toNat / 3600000 : ℕ) : ℤ) := by omega
  have h2 : t % 3600000 / 60000 = ((t.toNat % 3600000 / 60000 : ℕ) : ℤ) := by omega
  have h3 : t % 3600000 % 60000 / 1000
      = ((t.toNat % 3600000 % 60000 / 1000 : ℕ) : ℤ) := by omega
  have h4 : t % 3600000 % 60000 % 1000
      = ((t.toNat % 3600000 % 60000 % 1000 : ℕ) : ℤ) := by omega
  show intPad 2 (t / 3600000) ++ ':' :: intPad 2 (t % 3600000 / 60000) ++ ':'
      :: intPad 2 (t % 3600000 % 60000 / 1000) ++ ','
      :: intPad 3 (t % 3600000 % 60000 % 1000) = _
  rw [h1, h2, h3, h4, intPad_natCast, intPad_natCast, intPad_natCast, intPad_natCast]

/-- Modelled from the spec: §4.3 of the specification says timestamps are
rounded to the nearest millisecond with ties rounded half-up; this
refinement definition follows the spec's words (`round(x) = ⌊x + 1/2⌋`)
over the same rendering pipeline, for comparison with the code's
`format_timestamp`. -/
def roundHalfUpPair (a b : ℤ) : ℤ := (2 * a + b) / (2 * b)

/-- Modelled from the spec: `format_timestamp` as §4.3 describes it, with
half-up tie-breaking. -/
def format_timestamp_half_up (seconds : ℚ) : List Char :=
  let total_ms := roundHalfUpPair (seconds.num * 1000) (seconds.den : ℤ)
  let hrs := total_ms / 3600000
  let rem := total_ms % 3600000
  let mins := rem / 60000
  let rem2 := rem % 60000
  let secs := rem2 / 1000
  let ms := rem2 % 1000
  intPad 2 hrs ++ ':' :: intPad 2 mins ++ ':' :: intPad 2 secs ++ ',' :: intPad 3 ms

/-- C5 (counterexample): at 2.5 ms (`seconds = 5/2000`) the code rounds
to the even 2 ms (`"00:00:00,002"`) while the claimed half-up rounding
would give 3 ms (`"00:00:00,003"`). -/
theorem format_timestamp_not_half_up :
    format_timestamp (mkRat 5 2000) = "00:00:00,002".toList ∧
      format_timestamp_half_up (mkRat 5 2000) = "00:00:00,003".toList ∧
      format_timestamp (mkRat 5 2000) ≠ format_timestamp_half_up (mkRat 5 2000) :=
  ⟨by decide, by decide, by decide⟩

/-- C5 (witness): the decomposition property instantiated at one second. -/
theorem format_timestamp_decomposition_witness :
    (0 : ℚ) ≤ 1 ∧
    (∃ H M S ms : ℕ, M < 60 ∧ S < 60 ∧ ms < 1000 ∧
      pyRoundTimes1000 1 = ((H * 3600000 + M * 60000 + S * 1000 + ms : ℕ) : ℤ) ∧
      H = (pyRoundTimes1000 1).toNat / 3600000 ∧
      |(1 : ℚ) * 1000 - (pyRoundTimes1000 1 : ℚ)| ≤ 1 / 2 ∧
      (|(1 : ℚ) * 1000 - (pyRoundTimes1000 1 : ℚ)| = 1 / 2 → pyRoundTimes1000 1 % 2 = 0) ∧
      format_timestamp 1 =
        zeroPad 2 (natToDigits H) ++ ':' :: zeroPad 2 (natToDigits M) ++ ':'
          :: zeroPad 2 (natToDigits S) ++ ',' :: zeroPad 3 (natToDigits ms)) :=
  ⟨by decide, format_timestamp_decomposition 1 (by decide)⟩

/-! ## Digit-string lemmas for the codec round-trip -/

/-- The conversion `⟨pyRoundTimes1000 start, pyRoundTimes1000 stop, text⟩`
from an encoded line to the cue the decoder recovers. -/
def toCue (l : SrtLine) : Cue :=
  ⟨pyRoundTimes1000 l.start, pyRoundTimes1000 l.stop, l.text⟩

/-- The side conditions under which one line survives the SRT round trip
unchanged: timestamps land in `[0, 100h)` and the text is a single
non-blank stripped line. -/
def srtLineEncodable (l : SrtLine) : Prop :=
  0 ≤ pyRoundTimes1000 l.start ∧ pyRoundTimes1000 l.start < 360000000 ∧
    0 ≤ pyRoundTimes1000 l.stop ∧ pyRoundTimes1000 l.stop < 360000000 ∧
    l.text ≠ [] ∧ pyStrip l.text = l.text ∧ '\n' ∉ l.text ∧ '\r' ∉ l.text

instance (l : SrtLine) : Decidable (srtLineEncodable l) := by
  unfold srtLineEncodable; infer_instance

theorem digitChar_isDigit {d : Nat} (h : d < 10) : (digitChar d).isDigit = true := by
  interval_cases d <;> decide

theorem digitChar_val {d : Nat} (h : d < 10) : (digitChar d).toNat - 48 = d := by
  interval_cases d <;> decide

theorem digitChar_ne {d : Nat} (h : d < 10) (c : Char) (hc : c.isDigit = false) :
    digitChar d ≠ c := by
  intro he
  rw [← he] at hc
  rw [digitChar_isDigit h] at hc
  cases hc

theorem isDigit_not_space {c : Char} (h : c.isDigit = true) : pyIsSpace c = false := by
  rcases Bool.eq_false_or_eq_true (pyIsSpace c) with ht | hf
  · exfalso
    simp only [pyIsSpace, Bool.or_eq_true, beq_iff_eq] at ht
    have hor : c = ' ' ∨ c = '\t' ∨ c = '\n' ∨ c = '\x0d' ∨ c = '\x0b' ∨ c = '\x0c' := by
      tauto
    rcases hor with h1 | h1 | h1 | h1 | h1 | h1 <;> subst h1 <;> exact absurd h (by decide)
  · exact hf

theorem isDigit_ne {c c' : Char} (h : c.isDigit = true) (hc' : c'.isDigit = false) :
    c ≠ c' := by
  intro he
  subst he
  rw [h] at hc'
  cases hc'

/-- One unfolding step of the digit-renderer. -/
theorem natToDigitsAux_succ (fuel n : Nat) (acc : List Char) :
    natToDigitsAux (fuel + 1) n acc =
      if n < 10 then digitChar n :: acc
      else natToDigitsAux fuel (n / 10) (digitChar (n % 10) :: acc) := rfl

theorem natToDigits_lt10 {n : Nat} (h : n < 10) : natToDigits n = [digitChar n] := by
  rw [natToDigits, natToDigitsAux_succ, if_pos h]

theorem natToDigits_two {n : Nat} (h10 : 10 ≤ n) (h100 : n < 100) :
    natToDigits n = [digitChar (n / 10), digitChar (n % 10)] := by
  rw [natToDigits, natToDigitsAux_succ, if_neg (by omega)]
  have hf : n = (n - 1) + 1 := by omega
  rw [hf, natToDigitsAux_succ, if_pos (by omega)]

theorem natToDigits_three {n : Nat} (h100 : 100 ≤ n) (h1000 : n < 1000) :
    natToDigits n = [digitChar (n / 100), digitChar (n / 10 % 10), digitChar (n % 10)] := by
  rw [natToDigits, natToDigitsAux_succ, if_neg (by omega)]
  have hf1 : n = (n - 1) + 1 := by omega
  rw [hf1, natToDigitsAux_succ, if_neg (by omega)]
  have hf2 : n - 1 = (n - 2) + 1 := by omega
  rw [hf2, natToDigitsAux_succ, if_pos (by omega)]
  have hdd : (n - 2 + 1 + 1) / 10 / 10 = (n - 2 + 1 + 1) / 100 := by omega
  rw [hdd]

theorem natToDigitsAux_all_digit : ∀ (fuel n : Nat) (acc : List Char),
    (∀ c ∈ acc, c.isDigit = true) → ∀ c ∈ natToDigitsAux fuel n acc, c.isDigit = true := by
  intro fuel
  induction fuel with
  | zero => intro n acc hacc c hc; exact hacc c hc
  | succ f ih =>
    intro n acc hacc c hc
    rw [natToDigitsAux_succ] at hc
    split_ifs at hc with h
    · rcases List.mem_cons.1 hc with rfl | hc'
      · exact digitChar_isDigit h
      · exact hacc c hc'
    · refine ih (n / 10) _ ?_ c hc
      intro c' hc'
      rcases List.mem_cons.1 hc' with rfl | hc''
      · exact digitChar_isDigit (Nat.mod_lt _ (by norm_num))
      · exact hacc c' hc''

theorem natToDigits_all_digit (n : Nat) : ∀ c ∈ natToDigits n, c.isDigit = true :=
  natToDigitsAux_all_digit (n + 1) n [] (by intro c hc; cases hc)

theorem natToDigitsAux_ne_nil : ∀ (fuel n : Nat) (acc : List Char),
    1 ≤ fuel ∨ acc ≠ [] → natToDigitsAux fuel n acc ≠ [] := by
  intro fuel
  induction fuel with
  | zero =>
    intro n acc h
    rcases h with h | h
    · omega
    · exact h
  | succ f ih =>
    intro n acc _
    rw [natToDigitsAux_succ]
    split_ifs with h
    · simp
    · exact ih (n / 10) _ (Or.inr (by simp))

theorem natToDigits_ne_nil (n : Nat) : natToDigits n ≠ [] :=
  natToDigitsAux_ne_nil (n + 1) n [] (Or.inl (by omega))

theorem zeroPad2_eq {n : Nat} (h : n < 100) :
    zeroPad 2 (natToDigits n) = [digitChar (n / 10), digitChar (n % 10)] := by
  by_cases h10 : n < 10
  · rw [natToDigits_lt10 h10]
    have h1 : n / 10 = 0 := by omega
    have h2 : n % 10 = n := by omega
    rw [h1, h2]
    show List.replicate 1 '0' ++ [digitChar n] = [digitChar 0, digitChar n]
    have : digitChar 0 = '0' := by decide
    rw [this]
    rfl
  · rw [natToDigits_two (by omega) h]
    show List.replicate 0 '0' ++ _ = _
    rfl

theorem zeroPad3_eq {n : Nat} (h : n < 1000) :
    zeroPad 3 (natToDigits n)
      = [digitChar (n / 100), digitChar (n / 10 % 10), digitChar (n % 10)] := by
  by_cases h10 : n < 10
  · rw [natToDigits_lt10 h10]
    have h1 : n / 100 = 0 := by omega
    have h2 : n / 10 % 10 = 0 := by omega
    have h3 : n % 10 = n := by omega
    rw [h1, h2, h3]
    show List.replicate 2 '0' ++ [digitChar n] = [digitChar 0, digitChar 0, digitChar n]
    have : digitChar 0 = '0' := by decide
    rw [this]
    rfl
  · by_cases h100 : n < 100
    · rw [natToDigits_two (by omega) h100]
      have h1 : n / 100 = 0 := by omega
      have h2 : n / 10 % 10 = n / 10 := by omega
      rw [h1, h2]
      show List.replicate 1 '0' ++ _ = [digitChar 0, _, _]
      have : digitChar 0 = '0' := by decide
      rw [this]
      rfl
    · rw [natToDigits_three (by omega) h]
      show List.replicate 0 '0' ++ _ = _
      rfl

/-! ## Structure of a bounded formatted timestamp -/

/-- Every character of a zero-padded field is a digit. -/
theorem zeroPad_digits {s : List Char} (hs : ∀ c ∈ s, c.isDigit = true) (w : Nat) :
    ∀ c ∈ zeroPad w s, c.isDigit = true := by
  intro c hc
  rcases List.mem_append.1 hc with hc' | hc'
  · rw [List.eq_of_mem_replicate hc']
    decide
  · exact hs c hc'

/-- Every character of `intPad` is a digit or a minus sign. -/
theorem intPad_chars (w : Nat) (i : ℤ) :
    ∀ c ∈ intPad w i, c.isDigit = true ∨ c = '-' := by
  intro c hc
  unfold intPad at hc
  split_ifs at hc with h
  · rcases List.mem_cons.1 hc with rfl | hc'
    · exact Or.inr rfl
    · exact Or.inl (zeroPad_digits (natToDigits_all_digit _) _ c hc')
  · exact Or.inl (zeroPad_digits (natToDigits_all_digit _) _ c hc)

/-- Every character of a formatted timestamp is a digit, `-`, `:` or `,`. -/
theorem format_timestamp_chars (q : ℚ) :
    ∀ c ∈ format_timestamp q, c.isDigit = true ∨ c = '-' ∨ c = ':' ∨ c = ',' := by
  intro c hc
  unfold format_timestamp at hc
  dsimp only at hc
  simp only [List.mem_append, List.mem_cons] at hc
  rcases hc with ((h | h | h) | h | h) | h | h
  · rcases intPad_chars _ _ c h with h' | h' <;> tauto
  · tauto
  · rcases intPad_chars _ _ c h with h' | h' <;> tauto
  · tauto
  · rcases intPad_chars _ _ c h with h' | h' <;> tauto
  · tauto
  · rcases intPad_chars _ _ c h with h' | h' <;> tauto

/-- Every character of a timing line is a digit, `-`, `:`, `,`, ` ` or `>`. -/
theorem tsLine_chars (l : SrtLine) :
    ∀ c ∈ tsLine l,
      c.isDigit = true ∨ c = '-' ∨ c = ':' ∨ c = ',' ∨ c = ' ' ∨ c = '>' := by
  intro c hc
  unfold tsLine at hc
  simp only [List.mem_append, List.mem_cons] at hc
  rcases hc with h | h | h | h | h | h | h
  · rcases format_timestamp_chars _ c h with h' | h' | h' | h' <;> tauto
  · tauto
  · tauto
  · tauto
  · tauto
  · tauto
  · rcases format_timestamp_chars _ c h with h' | h' | h' | h' <;> tauto

/-- A bounded non-negative total renders as the explicit 12-character
timestamp. -/
theorem format_timestamp_bounded {q : ℚ} (h0 : 0 ≤ pyRoundTimes1000 q)
    (hb : pyRoundTimes1000 q < 360000000) :
    ∃ H M S ms : Nat, H < 100 ∧ M < 60 ∧ S < 60 ∧ ms < 1000 ∧
      pyRoundTimes1000 q = ((H * 3600000 + M * 60000 + S * 1000 + ms : ℕ) : ℤ) ∧
      format_timestamp q = [digitChar (H / 10), digitChar (H % 10), ':',
        digitChar (M / 10), digitChar (M % 10), ':',
        digitChar (S / 10), digitChar (S % 10), ',',
        digitChar (ms / 100), digitChar (ms / 10 % 10), digitChar (ms % 10)] := by
  set t := pyRoundTimes1000 q with hts
  refine ⟨t.toNat / 3600000, t.toNat % 3600000 / 60000,
    t.toNat % 3600000 % 60000 / 1000, t.toNat % 3600000 % 60000 % 1000,
    by omega, by omega, by omega, by omega, by omega, ?_⟩
  have h1 : t / 3600000 = ((t.toNat / 3600000 : ℕ) : ℤ) := by omega
  have h2 : t % 3600000 / 60000 = ((t.toNat % 3600000 / 60000 : ℕ) : ℤ) := by omega
  have h3 : t % 3600000 % 60000 / 1000
      = ((t.toNat % 3600000 % 60000 / 1000 : ℕ) : ℤ) := by omega
  have h4 : t % 3600000 % 60000 % 1000
      = ((t.toNat % 3600000 % 60000 % 1000 : ℕ) : ℤ) := by omega
  show intPad 2 (t / 3600000) ++ ':' :: intPad 2 (t % 3600000 / 60000) ++ ':'
      :: intPad 2 (t % 3600000 % 60000 / 1000) ++ ','
      :: intPad 3 (t % 3600000 % 60000 % 1000) = _
  rw [h1, h2, h3, h4, intPad_natCast, intPad_natCast, intPad_natCast, intPad_natCast,
    zeroPad2_eq (by omega), zeroPad2_eq (by omega), zeroPad2_eq (by omega),
    zeroPad3_eq (by omega)]
  rfl

/-! ## Behaviour of `splitBlankRuns` on separated blocks -/

/-- No two adjacent newlines. -/
def noTwoNl (b : List Char) : Prop :=
  List.Chain' (fun x y => ¬(x = '\n' ∧ y = '\n')) b

/-- Length (0 or 1) of the leading newline run of a block without double
newlines. -/
def leadNl (b : List Char) : Nat := if b.head? = some '\n' then 1 else 0

theorem noTwoNl_of_no_nl {b : List Char} (h : '\n' ∉ b) : noTwoNl b := by
  induction b with
  | nil => exact List.chain'_nil
  | cons c rest ih =>
    rcases rest with _ | ⟨c2, rest'⟩
    · exact List.chain'_singleton c
    · rw [noTwoNl, List.chain'_cons]
      refine ⟨?_, ?_⟩
      · rintro ⟨h1, -⟩
        exact h (h1 ▸ List.mem_cons_self c _)
      · exact ih (fun hm => h (List.mem_cons_of_mem c hm))

theorem dropWhile_nl_of_leadNl_zero {b : List Char} (h : leadNl b = 0) :
    b.dropWhile (· = '\n') = b := by
  rcases b with _ | ⟨c, rest⟩
  · rfl
  · rw [leadNl] at h
    by_cases hc : (c :: rest).head? = some '\n'
    · rw [if_pos hc] at h
      cases h
    · rw [if_neg hc] at h
      have hcne : ¬(c = '\n') := fun he => hc (by rw [he]; rfl)
      exact List.dropWhile_cons_of_neg (by simpa using hcne)

theorem sbr_fold_block {b : List Char} (hb : noTwoNl b) (cur : List Char)
    (blocks : List (List Char)) :
    b.foldr sbrStep (0, cur, blocks) = (leadNl b, b.dropWhile (· = '\n') ++ cur, blocks) := by
  induction b with
  | nil => simp [leadNl]
  | cons c rest ih =>
    have hrest : noTwoNl rest := hb.tail
    rw [List.foldr_cons, ih hrest]
    by_cases hc : c = '\n'
    · subst hc
      have hlr : leadNl rest = 0 := by
        rcases rest with _ | ⟨c2, rest2⟩
        · rfl
        · have h2 := (List.chain'_cons.1 hb).1
          rw [leadNl]
          split_ifs with hh
          · exact absurd ⟨rfl, by simpa using hh⟩ h2
          · rfl
      rw [hlr, dropWhile_nl_of_leadNl_zero hlr]
      have hstep : sbrStep '\n' (0, rest ++ cur, blocks) = (1, rest ++ cur, blocks) := rfl
      rw [hstep]
      have hlead : leadNl ('\n' :: rest) = 1 := rfl
      rw [hlead]
      have hdw : ('\n' :: rest).dropWhile (· = '\n') = rest.dropWhile (· = '\n') := by
        simp [List.dropWhile_cons]
      rw [hdw, dropWhile_nl_of_leadNl_zero hlr]
    · have hlead : leadNl (c :: rest) = 0 := by
        rw [leadNl]
        split_ifs with hh
        · exact absurd (by simpa using hh) hc
        · rfl
      have hdwc : (c :: rest).dropWhile (· = '\n') = c :: rest :=
        List.dropWhile_cons_of_neg (by simpa using hc)
      rw [hlead, hdwc]
      by_cases hh : rest.head? = some '\n'
      · rcases rest with _ | ⟨c2, rest2⟩
        · cases hh
        · have hc2 : c2 = '\n' := by simpa using hh
          subst hc2
          have hlr : leadNl ('\n' :: rest2) = 1 := rfl
          have hlr2 : leadNl rest2 = 0 := by
            rcases rest2 with _ | ⟨c3, rest3⟩
            · rfl
            · have h3 := (List.chain'_cons.1 hrest).1
              rw [leadNl]
              split_ifs with hh3
              · exact absurd ⟨rfl, by simpa using hh3⟩ h3
              · rfl
          rw [hlr]
          have hdw2 : ('\n' :: rest2).dropWhile (· = '\n') = rest2 := by
            rw [List.dropWhile_cons]
            simp only [decide_eq_true_eq, if_pos rfl]
            exact dropWhile_nl_of_leadNl_zero hlr2
          rw [hdw2]
          have hstep : sbrStep c (1, rest2 ++ cur, blocks)
              = (0, c :: '\n' :: (rest2 ++ cur), blocks) := by
            show (if c = '\n' then _ else if 2 ≤ 1 then _ else if (1 : Nat) = 1 then _ else _) = _
            rw [if_neg hc, if_neg (by omega), if_pos rfl]
          rw [hstep]
          simp
      · have hlr : leadNl rest = 0 := by
          rw [leadNl, if_neg hh]
        rw [hlr, dropWhile_nl_of_leadNl_zero hlr]
        have hstep : sbrStep c (0, rest ++ cur, blocks)
            = (0, c :: (rest ++ cur), blocks) := by
          show (if c = '\n' then _ else if 2 ≤ 0 then _ else if (0 : Nat) = 1 then _ else _) = _
          rw [if_neg hc, if_neg (by omega), if_neg (by omega)]
        rw [hstep]
        simp

/-- A block of well-formed shape: non-empty, no doubled newline, and not
framed by newlines. -/
def goodBlock (b : List Char) : Prop :=
  b ≠ [] ∧ noTwoNl b ∧ b.head? ≠ some '\n' ∧ b.getLast? ≠ some '\n'

/-- Folding a good block over a pending separator closes the block to its
right. -/
theorem sbr_fold_sep_block {b : List Char} (hgood : goodBlock b) (p : Nat)
    (hp : 2 ≤ p) (cur : List Char) (blocks : List (List Char)) :
    b.foldr sbrStep (p, cur, blocks) = (leadNl b, b ++ [], cur :: blocks) := by
  obtain ⟨hne, htwo, hhead, hlast⟩ := hgood
  rcases List.eq_nil_or_concat b with rfl | ⟨front, c, rfl⟩
  · exact absurd rfl hne
  · have hcne : ¬(c = '\n') := by
      intro he
      subst he
      exact hlast (by simp)
    rw [List.concat_eq_append] at htwo hhead hlast ⊢
    rw [List.foldr_append]
    have hstep : List.foldr sbrStep (p, cur, blocks) [c] = (0, [c], cur :: blocks) := by
      show sbrStep c (p, cur, blocks) = _
      show (if c = '\n' then _ else if 2 ≤ p then _ else if p = 1 then _ else _) = _
      rw [if_neg hcne, if_pos hp]
    rw [hstep]
    have hfront : noTwoNl front := by
      have := htwo
      rw [noTwoNl] at this ⊢
      exact (List.chain'_append.1 this).1
    rw [sbr_fold_block hfront]
    have hleadf : leadNl front = leadNl (front ++ [c]) := by
      rcases front with _ | ⟨f0, front'⟩
      · rw [leadNl, leadNl]
        rw [if_neg (by simp), if_neg (by simpa using hcne)]
      · rfl
    have hdwf : front.dropWhile (· = '\n') = front := by
      apply dropWhile_nl_of_leadNl_zero
      rcases front with _ | ⟨f0, front'⟩
      · rfl
      · rw [leadNl, if_neg (by simpa using hhead)]
    rw [hleadf, hdwf]
    simp

/-- Folding an intercalated list of good blocks recovers the blocks. -/
theorem sbr_fold_intercalate : ∀ (bs : List (List Char)) (b0 : List Char),
    goodBlock b0 → (∀ b ∈ bs, goodBlock b) →
    (List.intercalate ['\n', '\n'] (b0 :: bs)).foldr sbrStep (0, [], [])
      = (0, b0, bs) := by
  intro bs
  induction bs with
  | nil =>
    intro b0 h0 _
    have : List.intercalate ['\n', '\n'] [b0] = b0 := by
      simp [List.intercalate]
    rw [this, sbr_fold_block h0.2.1]
    have hlead : leadNl b0 = 0 := by
      rw [leadNl, if_neg h0.2.2.1]
    have hdw : b0.dropWhile (· = '\n') = b0 := dropWhile_nl_of_leadNl_zero hlead
    rw [hlead, hdw]
    simp
  | cons b1 rest ih =>
    intro b0 h0 hall
    have hstruct : List.intercalate ['\n', '\n'] (b0 :: b1 :: rest)
        = b0 ++ '\n' :: '\n' :: List.intercalate ['\n', '\n'] (b1 :: rest) := by
      rw [List.intercalate, List.intersperse_cons_cons]
      rw [List.intercalate]
      simp
    rw [hstruct, List.foldr_append]
    have hrest := ih b1 (hall b1 (List.mem_cons_self b1 rest))
      (fun b hb => hall b (List.mem_cons_of_mem b1 hb))
    have hsep : List.foldr sbrStep
        ((List.intercalate ['\n', '\n'] (b1 :: rest)).foldr sbrStep (0, [], []))
        ['\n', '\n'] = (2, b1, rest) := by
      rw [hrest]
      rfl
    rw [show ('\n' :: '\n' :: List.intercalate ['\n', '\n'] (b1 :: rest)).foldr sbrStep
        (0, ([] : List Char), ([] : List (List Char)))
        = List.foldr sbrStep ((List.intercalate ['\n', '\n'] (b1 :: rest)).foldr sbrStep
          (0, [], [])) ['\n', '\n'] from rfl] at *
    rw [hsep]
    rw [sbr_fold_sep_block h0 2 (le_refl 2)]
    have hlead : leadNl b0 = 0 := by rw [leadNl, if_neg h0.2.2.1]
    rw [hlead]
    simp

/-- `re.split(r"\n{2,}")` of an intercalated list of good blocks is
exactly the block list. -/
theorem splitBlankRuns_intercalate (bs : List (List Char)) (b0 : List Char)
    (h0 : goodBlock b0) (hall : ∀ b ∈ bs, goodBlock b) :
    splitBlankRuns (List.intercalate ['\n', '\n'] (b0 :: bs)) = b0 :: bs := by
  rw [splitBlankRuns, sbr_fold_intercalate bs b0 h0 hall]
  rfl

/-! ## Normalisation is the identity on the encoder's output -/

/-- `replace("\r\n", "\n")` fixes a string without carriage returns. -/
theorem pyReplaceCrlf_eq_self : ∀ {s : List Char}, '\r' ∉ s → pyReplaceCrlf s = s := by
  intro s
  induction s with
  | nil => intro _; rfl
  | cons c rest ih =>
    intro h
    have hc : c ≠ '\r' := fun he => h (he ▸ List.mem_cons_self c rest)
    have hr : '\r' ∉ rest := fun hm => h (List.mem_cons_of_mem c hm)
    rw [pyReplaceCrlf.eq_def]
    split <;> simp_all

/-- `replace("\r", "\n")` fixes a string without carriage returns. -/
theorem pyReplaceCr_eq_self : ∀ {s : List Char}, '\r' ∉ s → pyReplaceCr s = s := by
  intro s
  induction s with
  | nil => intro _; rfl
  | cons c rest ih =>
    intro h
    have hc : c ≠ '\r' := fun he => h (he ▸ List.mem_cons_self c rest)
    have hr : '\r' ∉ rest := fun hm => h (List.mem_cons_of_mem c hm)
    rw [pyReplaceCr.eq_def]
    split <;> simp_all

/-- `lstrip("﻿")` keeps a string whose head is not a byte-order
mark. -/
theorem bomStrip_cons_ne {c : Char} (rest : List Char) (hc : c ≠ '﻿') :
    bomStrip (c :: rest) = c :: rest :=
  List.dropWhile_cons_of_neg (by simpa using hc)

/-- Unfolding `intercalate` over a two-or-more element list. -/
theorem intercalate_cons_cons (sep b0 b1 : List Char) (rest : List (List Char)) :
    List.intercalate sep (b0 :: b1 :: rest)
      = b0 ++ sep ++ List.intercalate sep (b1 :: rest) := by
  rw [List.intercalate, List.intersperse_cons_cons, List.intercalate]
  simp

/-- Concatenating separator-terminated chunks is `intercalate` plus one
trailing separator. -/
theorem flatten_map_append_sep (sep : List Char) :
    ∀ (b0 : List Char) (bs : List (List Char)),
    ((b0 :: bs).map (fun b => b ++ sep)).flatten
      = List.intercalate sep (b0 :: bs) ++ sep := by
  intro b0 bs
  induction bs generalizing b0 with
  | nil => simp [List.intercalate]
  | cons b1 rest ih =>
    rw [List.map_cons, List.flatten_cons, ih b1, intercalate_cons_cons]
    simp

/-- The encoder's output text: the intercalated block cores followed by
one trailing blank-line separator. -/
theorem write_srt_text_structure (l0 : SrtLine) (ls : List SrtLine) :
    write_srt_text (l0 :: ls)
      = List.intercalate ['\n', '\n']
          ((l0 :: ls).enum.map (fun p => srtBlockCore (p.1 + 1) p.2)) ++ '\n' :: '\n' :: [] := by
  have hmap : ∀ (ps : List (Nat × SrtLine)),
      ps.map (fun p => srtBlock (p.1 + 1) p.2)
        = (ps.map (fun p => srtBlockCore (p.1 + 1) p.2)).map
            (fun b => b ++ '\n' :: '\n' :: []) := by
    intro ps
    rw [List.map_map]
    rfl
  rw [write_srt_text, hmap]
  have hcons : (l0 :: ls).enum.map (fun p => srtBlockCore (p.1 + 1) p.2)
      = srtBlockCore 1 l0
        :: (List.enumFrom 1 ls).map (fun p => srtBlockCore (p.1 + 1) p.2) := rfl
  rw [hcons, flatten_map_append_sep]

/-- `rstrip()` removes an all-whitespace suffix. -/
theorem pyRStrip_append_space {t : List Char} (s : List Char)
    (ht : ∀ c ∈ t, pyIsSpace c = true) :
    pyRStrip (s ++ t) = pyRStrip s := by
  rw [pyRStrip, pyRStrip, List.reverse_append]
  congr 1
  rw [List.dropWhile_append]
  have hnil : t.reverse.dropWhile pyIsSpace = [] := by
    rw [List.dropWhile_eq_nil_iff]
    intro c hc
    exact ht c (List.mem_reverse.1 hc)
  rw [hnil]
  simp

/-- `strip()` of a core text followed by the trailing blank line recovers
the core. -/
theorem pyStrip_core_append {core : List Char} {c d : Char}
    (hh : core.head? = some c) (hc : pyIsSpace c = false)
    (hl : core.getLast? = some d) (hd : pyIsSpace d = false) :
    pyStrip (core ++ '\n' :: '\n' :: []) = core := by
  rw [pyStrip, pyRStrip_append_space core (by intro x hx; fin_cases hx <;> rfl)]
  have hfix := pyStrip_eq_self_of_ends hh hc hl hd
  rw [pyStrip] at hfix
  exact hfix
/-! ## The encoder's block cores are well-shaped -/

theorem getLast?_mem_list {α : Type _} {l : List α} {d : α} (h : l.getLast? = some d) : d ∈ l := by
  obtain ⟨hne, heq⟩ := List.mem_getLast?_eq_getLast (by rw [h]; rfl)
  rw [heq]
  exact List.getLast_mem hne

theorem head?_mem_list {α : Type _} {l : List α} {d : α} (h : l.head? = some d) : d ∈ l := by
  rcases l with _ | ⟨c, rest⟩
  · cases h
  · obtain rfl : c = d := by simpa using h
    exact List.mem_cons_self c rest

theorem nl_not_mem_natToDigits (n : Nat) : '\n' ∉ natToDigits n := by
  intro hm
  have := natToDigits_all_digit n '\n' hm
  exact absurd this (by decide)

theorem cr_not_mem_natToDigits (n : Nat) : '\r' ∉ natToDigits n := by
  intro hm
  have := natToDigits_all_digit n '\r' hm
  exact absurd this (by decide)

theorem nl_not_mem_tsLine (l : SrtLine) : '\n' ∉ tsLine l := by
  intro hm
  rcases tsLine_chars l '\n' hm with h | h | h | h | h | h <;> exact absurd h (by decide)

theorem cr_not_mem_tsLine (l : SrtLine) : '\r' ∉ tsLine l := by
  intro hm
  rcases tsLine_chars l '\r' hm with h | h | h | h | h | h <;> exact absurd h (by decide)

theorem natToDigits_head_digit (n : Nat) :
    ∃ c, (natToDigits n).head? = some c ∧ c.isDigit = true := by
  obtain ⟨c, rest, hc⟩ := List.exists_cons_of_ne_nil (natToDigits_ne_nil n)
  refine ⟨c, by rw [hc]; rfl, ?_⟩
  exact natToDigits_all_digit n c (hc ▸ List.mem_cons_self c rest)

theorem tsLine_ne_nil (l : SrtLine) : tsLine l ≠ [] := by
  rw [tsLine]
  intro h
  exact absurd (List.append_eq_nil.1 h).2 (List.cons_ne_nil _ _)

/-- Gluing a newline-free segment in front of a block keeps runs of
newlines no longer than one. -/
theorem noTwoNl_append_nl {a rest : List Char} (ha : '\n' ∉ a)
    (hrest : noTwoNl rest) (hh : rest.head? ≠ some '\n') :
    noTwoNl (a ++ '\n' :: rest) := by
  rw [noTwoNl, List.chain'_append]
  refine ⟨noTwoNl_of_no_nl ha, ?_, ?_⟩
  · rw [List.chain'_cons']
    refine ⟨?_, hrest⟩
    intro y hy
    rintro ⟨-, rfl⟩
    exact hh hy
  · intro x hx y hy
    rintro ⟨rfl, -⟩
    exact ha (getLast?_mem_list hx)

/-- The stripped text of a line is a suffix of its block core. -/
theorem srtBlockCore_text_suffix (idx : Nat) (l : SrtLine) :
    pyStrip l.text <:+ srtBlockCore idx l := by
  refine ⟨natToDigits idx ++ '\n' :: tsLine l ++ ['\n'], ?_⟩
  rw [srtBlockCore]
  simp

/-- An encodable line's block core is a good block: non-empty, free of
doubled newlines, and not framed by newlines. -/
theorem srtBlockCore_goodBlock (idx : Nat) {l : SrtLine} (henc : srtLineEncodable l) :
    goodBlock (srtBlockCore idx l) := by
  obtain ⟨-, -, -, -, htne, hstrip, hnl, -⟩ := henc
  obtain ⟨c, hc, hcd⟩ := natToDigits_head_digit idx
  refine ⟨?_, ?_, ?_, ?_⟩
  · rw [srtBlockCore]
    intro h
    exact absurd (List.append_eq_nil.1 h).2 (List.cons_ne_nil _ _)
  · rw [srtBlockCore, List.append_assoc, List.cons_append]
    refine noTwoNl_append_nl (nl_not_mem_natToDigits idx) ?_ ?_
    · refine noTwoNl_append_nl (nl_not_mem_tsLine l) ?_ ?_
      · rw [hstrip]
        exact noTwoNl_of_no_nl hnl
      · rw [hstrip]
        intro hhd
        exact hnl (head?_mem_list hhd)
    · rw [List.head?_append_of_ne_nil (tsLine l) (tsLine_ne_nil l)]
      intro hhd
      exact nl_not_mem_tsLine l (head?_mem_list hhd)
  · rw [srtBlockCore, List.append_assoc, List.cons_append,
      List.head?_append_of_ne_nil (natToDigits idx) (natToDigits_ne_nil idx), hc]
    intro hsome
    obtain rfl : c = '\n' := by simpa using hsome
    exact absurd hcd (by decide)
  · have hsfx := srtBlockCore_text_suffix idx l
    have htne' : pyStrip l.text ≠ [] := by rw [hstrip]; exact htne
    rw [getLast?_of_suffix hsfx htne', hstrip]
    intro hlast
    exact hnl (getLast?_mem_list hlast)

/-! ## Character classes and ends of the intercalated core text -/

theorem snd_mem_of_mem_enum {α : Type _} {x : Nat × α} {l : List α} (h : x ∈ l.enum) :
    x.2 ∈ l := by
  have h2 := List.mem_enum_iff_getElem?.1 h
  exact List.getElem?_mem h2

theorem cr_not_mem_srtBlockCore (idx : Nat) {l : SrtLine} (henc : srtLineEncodable l) :
    '\r' ∉ srtBlockCore idx l := by
  obtain ⟨-, -, -, -, -, hstrip, -, hcr⟩ := henc
  rw [srtBlockCore]
  intro hm
  rcases List.mem_append.1 hm with hm' | hm'
  · rcases List.mem_append.1 hm' with hm'' | hm''
    · exact cr_not_mem_natToDigits idx hm''
    · rcases List.mem_cons.1 hm'' with he | hm3
      · exact absurd he (by decide)
      · exact cr_not_mem_tsLine l hm3
  · rcases List.mem_cons.1 hm' with he | hm''
    · exact absurd he (by decide)
    · rw [hstrip] at hm''
      exact hcr hm''

/-- The trailing character of an encodable line's block core is
non-whitespace. -/
theorem srtBlockCore_getLast_nonspace (idx : Nat) {l : SrtLine} (henc : srtLineEncodable l) :
    ∃ d, (srtBlockCore idx l).getLast? = some d ∧ pyIsSpace d = false := by
  obtain ⟨-, -, -, -, htne, hstrip, -, -⟩ := henc
  have htne' : pyStrip l.text ≠ [] := by rw [hstrip]; exact htne
  obtain ⟨c, d, -, -, hl, hd⟩ := pyStrip_ends l.text htne'
  refine ⟨d, ?_, hd⟩
  rw [getLast?_of_suffix (srtBlockCore_text_suffix idx l) htne']
  exact hl

/-- The leading character of a block core is an ASCII digit. -/
theorem srtBlockCore_head_digit (idx : Nat) (l : SrtLine) :
    ∃ c, (srtBlockCore idx l).head? = some c ∧ c.isDigit = true := by
  obtain ⟨c, hc, hcd⟩ := natToDigits_head_digit idx
  refine ⟨c, ?_, hcd⟩
  rw [srtBlockCore, List.append_assoc, List.cons_append,
    List.head?_append_of_ne_nil (natToDigits idx) (natToDigits_ne_nil idx)]
  exact hc

/-- A character in neither the separator nor any chunk is not in the
intercalation. -/
theorem not_mem_intercalate {x : Char} {sep : List Char} (hsep : x ∉ sep) :
    ∀ (b0 : List Char) (bs : List (List Char)),
      (∀ b ∈ b0 :: bs, x ∉ b) → x ∉ List.intercalate sep (b0 :: bs) := by
  intro b0 bs
  induction bs generalizing b0 with
  | nil =>
    intro h
    simpa [List.intercalate] using h b0 (List.mem_cons_self b0 [])
  | cons b1 rest ih =>
    intro h
    rw [intercalate_cons_cons]
    intro hmem
    rcases List.mem_append.1 hmem with hm | hm
    · rcases List.mem_append.1 hm with hm' | hm'
      · exact h b0 (List.mem_cons_self b0 _) hm'
      · exact hsep hm'
    · exact ih b1 (fun b hb => h b (List.mem_cons_of_mem b0 hb)) hm

/-- The intercalation of a list of chunks starts with the first chunk. -/
theorem intercalate_head?_of_ne_nil {sep b0 : List Char} (bs : List (List Char))
    (h : b0 ≠ []) :
    (List.intercalate sep (b0 :: bs)).head? = b0.head? := by
  cases bs with
  | nil => simp [List.intercalate]
  | cons b1 rest =>
    rw [intercalate_cons_cons, List.append_assoc,
      List.head?_append_of_ne_nil b0 h]

/-- The intercalation of non-empty chunks ends with the last chunk. -/
theorem intercalate_getLast? {sep : List Char} :
    ∀ (b0 : List Char) (bs : List (List Char)) (bl : List Char),
      (∀ b ∈ b0 :: bs, b ≠ []) → (b0 :: bs).getLast? = some bl →
      (List.intercalate sep (b0 :: bs)).getLast? = bl.getLast? := by
  intro b0 bs
  induction bs generalizing b0 with
  | nil =>
    intro bl _ hbl
    obtain rfl : b0 = bl := by simpa using hbl
    simp [List.intercalate]
  | cons b1 rest ih =>
    intro bl hne hbl
    have h2 := ih b1 bl (fun b hb => hne b (List.mem_cons_of_mem b0 hb))
      (by simpa using hbl)
    have hinterne : List.intercalate sep (b1 :: rest) ≠ [] := by
      intro hn
      rw [hn, List.getLast?_nil] at h2
      have hblne : bl ≠ [] := hne bl (getLast?_mem_list hbl)
      rw [List.getLast?_eq_getLast_of_ne_nil hblne] at h2
      exact Option.noConfusion h2
    rw [intercalate_cons_cons, List.getLast?_append_of_ne_nil _ hinterne]
    exact h2

/-- Normalisation is the identity on the encoder's output: the decoder's
loop sees exactly the intercalated block cores. -/
theorem parse_srt_normalize_write (l0 : SrtLine) (ls : List SrtLine)
    (henc : ∀ l ∈ l0 :: ls, srtLineEncodable l) :
    parse_srt_normalize (write_srt_text (l0 :: ls))
      = List.intercalate ['\n', '\n']
          ((l0 :: ls).enum.map (fun p => srtBlockCore (p.1 + 1) p.2)) := by
  set cores := (l0 :: ls).enum.map (fun p => srtBlockCore (p.1 + 1) p.2) with hcores
  have hconsform : cores = srtBlockCore 1 l0
      :: (List.enumFrom 1 ls).map (fun p => srtBlockCore (p.1 + 1) p.2) := rfl
  have hcoreprops : ∀ b ∈ cores, goodBlock b ∧ '\r' ∉ b := by
    intro b hb
    rw [hcores] at hb
    obtain ⟨p, hp, rfl⟩ := List.mem_map.1 hb
    have hmem : p.2 ∈ l0 :: ls := snd_mem_of_mem_enum hp
    exact ⟨srtBlockCore_goodBlock _ (henc _ hmem), cr_not_mem_srtBlockCore _ (henc _ hmem)⟩
  obtain ⟨c, hc, hcd⟩ := srtBlockCore_head_digit 1 l0
  have hinterhead : (List.intercalate ['\n', '\n'] cores).head? = some c := by
    rw [hconsform, intercalate_head?_of_ne_nil _
      (hcoreprops (srtBlockCore 1 l0) (by rw [hconsform]; exact List.mem_cons_self _ _)).1.1]
    exact hc
  have hcne : cores ≠ [] := by rw [hconsform]; exact List.cons_ne_nil _ _
  obtain ⟨bl, hbl⟩ : ∃ bl, cores.getLast? = some bl :=
    ⟨cores.getLast hcne, List.getLast?_eq_getLast_of_ne_nil hcne⟩
  have hblmem : bl ∈ cores := getLast?_mem_list hbl
  have hblmem' := hblmem
  rw [hcores] at hblmem'
  obtain ⟨p, hp, hpe⟩ := List.mem_map.1 hblmem'
  obtain ⟨d, hd, hdns⟩ : ∃ d, bl.getLast? = some d ∧ pyIsSpace d = false := by
    rw [← hpe]
    exact srtBlockCore_getLast_nonspace _ (henc _ (snd_mem_of_mem_enum hp))
  have hallne : ∀ b ∈ cores, b ≠ [] := fun b hb => (hcoreprops b hb).1.1
  have hinterlast : (List.intercalate ['\n', '\n'] cores).getLast? = some d := by
    rw [hconsform] at hallne hbl ⊢
    rw [intercalate_getLast? _ _ bl hallne hbl, hd]
  have hcr : '\r' ∉ List.intercalate ['\n', '\n'] cores := by
    rw [hconsform]
    refine not_mem_intercalate (by decide) _ _ ?_
    intro b hb
    exact (hcoreprops b (by rw [hconsform]; exact hb)).2
  have hinterne : List.intercalate ['\n', '\n'] cores ≠ [] := by
    intro h
    rw [h] at hinterhead
    cases hinterhead
  have hXhead : (List.intercalate ['\n', '\n'] cores ++ '\n' :: '\n' :: []).head?
      = some c := by
    rw [List.head?_append_of_ne_nil _ hinterne]
    exact hinterhead
  have hXcr : '\r' ∉ List.intercalate ['\n', '\n'] cores ++ '\n' :: '\n' :: [] := by
    intro hm
    rcases List.mem_append.1 hm with hm' | hm'
    · exact hcr hm'
    · rcases List.mem_cons.1 hm' with he | hm'' 
      · exact absurd he (by decide)
      · rcases List.mem_cons.1 hm'' with he | hm3
        · exact absurd he (by decide)
        · cases hm3
  have hXcons := List.eq_cons_of_mem_head? (Option.mem_def.2 hXhead)
  have hbom : bomStrip (List.intercalate ['\n', '\n'] cores ++ '\n' :: '\n' :: [])
      = List.intercalate ['\n', '\n'] cores ++ '\n' :: '\n' :: [] := by
    rw [hXcons]
    exact bomStrip_cons_ne _ (isDigit_ne hcd (by decide))
  rw [parse_srt_normalize, write_srt_text_structure, hbom,
    pyReplaceCrlf_eq_self hXcr, pyReplaceCr_eq_self hXcr,
    pyStrip_core_append hinterhead (isDigit_not_space hcd) hinterlast hdns]

/-- `strip("\n")` fixes a string not framed by newlines. -/
theorem pyStripChar_eq_self {c : Char} {s : List Char}
    (hh : s.head? ≠ some c) (hl : s.getLast? ≠ some c) :
    pyStripChar c s = s := by
  have h1 : s.dropWhile (· == c) = s := by
    cases s with
    | nil => rfl
    | cons a t =>
      refine List.dropWhile_cons_of_neg ?_
      intro he
      have ha : a = c := by simpa using he
      exact hh (by rw [ha]; rfl)
  rw [pyStripChar, h1]
  have h2 : s.reverse.dropWhile (· == c) = s.reverse := by
    cases hrev : s.reverse with
    | nil => rfl
    | cons a t =>
      refine List.dropWhile_cons_of_neg ?_
      intro he
      have ha : a = c := by simpa using he
      have hla : s.getLast? = some a := by
        rw [← List.head?_reverse, hrev]
        rfl
      exact hl (ha ▸ hla)
  rw [h2, List.reverse_reverse]

/-- Identity maps act as the identity. -/
theorem map_eq_self_of_fixed {α : Type _} (f : α → α) :
    ∀ (l : List α), (∀ b ∈ l, f b = b) → l.map f = l := by
  intro l h
  induction l with
  | nil => rfl
  | cons x t ih =>
    rw [List.map_cons, h x (List.mem_cons_self x t),
      ih (fun b hb => h b (List.mem_cons_of_mem x hb))]

/-- The decoder's block list on an intercalation of good, non-blank
blocks is exactly the block list. -/
theorem parse_srt_blocks_intercalate (bs : List (List Char)) (b0 : List Char)
    (h0 : goodBlock b0) (hall : ∀ b ∈ bs, goodBlock b)
    (hnb : ∀ b ∈ b0 :: bs, pyStrip b ≠ []) :
    parse_srt_blocks (List.intercalate ['\n', '\n'] (b0 :: bs)) = b0 :: bs := by
  have hallgood : ∀ b ∈ b0 :: bs, goodBlock b := by
    intro b hb
    rcases List.mem_cons.1 hb with rfl | hb'
    · exact h0
    · exact hall b hb'
  rw [parse_srt_blocks, splitBlankRuns_intercalate bs b0 h0 hall]
  have hfil : (b0 :: bs).filter (fun b => pyStrip b ≠ []) = b0 :: bs := by
    rw [List.filter_eq_self]
    intro b hb
    simpa using hnb b hb
  rw [hfil]
  refine map_eq_self_of_fixed _ _ ?_
  intro b hb
  exact pyStripChar_eq_self (hallgood b hb).2.2.1 (hallgood b hb).2.2.2

/-- The decoder recovers exactly the encoder's block cores, in encoding
order. -/
theorem parse_srt_blocks_write (l0 : SrtLine) (ls : List SrtLine)
    (henc : ∀ l ∈ l0 :: ls, srtLineEncodable l) :
    parse_srt_blocks (parse_srt_normalize (write_srt_text (l0 :: ls)))
      = (l0 :: ls).enum.map (fun p => srtBlockCore (p.1 + 1) p.2) := by
  rw [parse_srt_normalize_write l0 ls henc]
  have hconsform : (l0 :: ls).enum.map (fun p => srtBlockCore (p.1 + 1) p.2)
      = srtBlockCore 1 l0
        :: (List.enumFrom 1 ls).map (fun p => srtBlockCore (p.1 + 1) p.2) := rfl
  have hmemprop : ∀ b ∈ (l0 :: ls).enum.map (fun p => srtBlockCore (p.1 + 1) p.2),
      goodBlock b ∧ pyStrip b ≠ [] := by
    intro b hb
    obtain ⟨p, hp, rfl⟩ := List.mem_map.1 hb
    have hmem : p.2 ∈ l0 :: ls := snd_mem_of_mem_enum hp
    obtain ⟨c, hc, hcd⟩ := srtBlockCore_head_digit (p.1 + 1) p.2
    exact ⟨srtBlockCore_goodBlock _ (henc _ hmem),
      pyStrip_ne_nil_of_head hc (isDigit_not_space hcd)⟩
  rw [hconsform]
  refine parse_srt_blocks_intercalate _ _ ?_ ?_ ?_
  · exact (hmemprop _ (by rw [hconsform]; exact List.mem_cons_self _ _)).1
  · intro b hb
    exact (hmemprop b (by rw [hconsform]; exact List.mem_cons_of_mem _ hb)).1
  · intro b hb
    exact (hmemprop b (by rw [hconsform]; exact hb)).2

/-! ## Splitting the block core into its three lines -/

theorem pySplitChar_no_sep {sep : Char} : ∀ {s : List Char}, sep ∉ s →
    pySplitChar sep s = [s] := by
  intro s
  induction s with
  | nil => intro _; rfl
  | cons c rest ih =>
    intro h
    have hc : c ≠ sep := fun he => h (he ▸ List.mem_cons_self c rest)
    have hr : sep ∉ rest := fun hm => h (List.mem_cons_of_mem c hm)
    rw [pySplitChar, if_neg hc, ih hr]

theorem pySplitChar_append_sep {sep : Char} : ∀ {a : List Char}, sep ∉ a →
    ∀ (b : List Char), pySplitChar sep (a ++ sep :: b) = a :: pySplitChar sep b := by
  intro a
  induction a with
  | nil =>
    intro _ b
    rw [List.nil_append, pySplitChar, if_pos rfl]
  | cons c a' ih =>
    intro h b
    have hc : c ≠ sep := fun he => h (he ▸ List.mem_cons_self c a')
    have ha' : sep ∉ a' := fun hm => h (List.mem_cons_of_mem c hm)
    rw [List.cons_append, pySplitChar, if_neg hc, ih ha' b]

/-- `strip()` fixes a non-empty all-digit string. -/
theorem pyStrip_all_digits {s : List Char} (hne : s ≠ [])
    (h : ∀ c ∈ s, c.isDigit = true) : pyStrip s = s := by
  obtain ⟨c, rest, rfl⟩ := List.exists_cons_of_ne_nil hne
  obtain ⟨d, hd⟩ : ∃ d, (c :: rest).getLast? = some d :=
    ⟨_, List.getLast?_eq_getLast_of_ne_nil hne⟩
  refine pyStrip_eq_self_of_ends (c := c) rfl ?_ hd ?_
  · exact isDigit_not_space (h c (List.mem_cons_self c rest))
  · exact isDigit_not_space (h d (getLast?_mem_list hd))

theorem pyStrip_natToDigits (n : Nat) : pyStrip (natToDigits n) = natToDigits n :=
  pyStrip_all_digits (natToDigits_ne_nil n) (natToDigits_all_digit n)

theorem pyIsDigitStr_natToDigits (n : Nat) : pyIsDigitStr (natToDigits n) = true := by
  rw [pyIsDigitStr]
  simp only [Bool.and_eq_true, decide_eq_true_eq, List.all_eq_true]
  exact ⟨natToDigits_ne_nil n, fun c hc => natToDigits_all_digit n c hc⟩

/-- `rstrip()` fixes a string whose last character is non-whitespace. -/
theorem pyRStrip_eq_self_of_last {s : List Char} {d : Char}
    (hl : s.getLast? = some d) (hd : pyIsSpace d = false) : pyRStrip s = s := by
  rw [pyRStrip]
  have hrev2 : s.reverse.dropWhile pyIsSpace = s.reverse := by
    rcases hrev : s.reverse with _ | ⟨a, t⟩
    · rfl
    · have ha : a = d := by
        have h2 := List.head?_reverse s
        rw [hrev, hl] at h2
        exact Option.some.inj h2
      exact List.dropWhile_cons_of_neg (by rw [ha, hd]; simp)
  rw [hrev2, List.reverse_reverse]

/-! ## Evaluating `to_ms` on a formatted timestamp -/

theorem pySplitLimit_cons_sep (sep : Char) (m : Nat) (rest : List Char) :
    pySplitLimit sep (m + 1) (sep :: rest) = [] :: pySplitLimit sep m rest := by
  rw [pySplitLimit, if_pos rfl]

theorem digitsToNat_two {p q : Nat} (hp : p < 10) (hq : q < 10) :
    digitsToNat [digitChar p, digitChar q] = 10 * p + q := by
  show 10 * (10 * 0 + ((digitChar p).toNat - 48)) + ((digitChar q).toNat - 48)
      = 10 * p + q
  rw [digitChar_val hp, digitChar_val hq]
  ring

theorem digitsToNat_three {p q v : Nat} (hp : p < 10) (hq : q < 10) (hv : v < 10) :
    digitsToNat [digitChar p, digitChar q, digitChar v] = 100 * p + 10 * q + v := by
  show 10 * (10 * (10 * 0 + ((digitChar p).toNat - 48)) + ((digitChar q).toNat - 48))
      + ((digitChar v).toNat - 48) = 100 * p + 10 * q + v
  rw [digitChar_val hp, digitChar_val hq, digitChar_val hv]
  ring

/-- `to_ms` of the digit rendering of a bounded H:M:S,ms decomposition. -/
theorem to_ms_digits {H M S ms : Nat} (hH : H < 100) (hM : M < 100) (hS : S < 100)
    (hms : ms < 1000) :
    to_ms [digitChar (H / 10), digitChar (H % 10), ':',
      digitChar (M / 10), digitChar (M % 10), ':',
      digitChar (S / 10), digitChar (S % 10), ',',
      digitChar (ms / 100), digitChar (ms / 10 % 10), digitChar (ms % 10)]
      = ((H * 3600000 + M * 60000 + S * 1000 + ms : ℕ) : ℤ) := by
  have hA : digitChar (H / 10) ≠ ':' := digitChar_ne (by omega) ':' (by decide)
  have hB : digitChar (H % 10) ≠ ':' := digitChar_ne (by omega) ':' (by decide)
  have hC : digitChar (M / 10) ≠ ':' := digitChar_ne (by omega) ':' (by decide)
  have hD : digitChar (M % 10) ≠ ':' := digitChar_ne (by omega) ':' (by decide)
  have hE : digitChar (S / 10) ≠ ',' := digitChar_ne (by omega) ',' (by decide)
  have hF : digitChar (S % 10) ≠ ',' := digitChar_ne (by omega) ',' (by decide)
  have hsplit1 : pySplitLimit ':' 2 [digitChar (H / 10), digitChar (H % 10), ':',
      digitChar (M / 10), digitChar (M % 10), ':',
      digitChar (S / 10), digitChar (S % 10), ',',
      digitChar (ms / 100), digitChar (ms / 10 % 10), digitChar (ms % 10)]
      = [[digitChar (H / 10), digitChar (H % 10)],
         [digitChar (M / 10), digitChar (M % 10)],
         [digitChar (S / 10), digitChar (S % 10), ',',
          digitChar (ms / 100), digitChar (ms / 10 % 10), digitChar (ms % 10)]] := by
    simp [pySplitLimit, hA, hB, hC, hD]
  have hsplit2 : pySplitLimit ',' 1 [digitChar (S / 10), digitChar (S % 10), ',',
      digitChar (ms / 100), digitChar (ms / 10 % 10), digitChar (ms % 10)]
      = [[digitChar (S / 10), digitChar (S % 10)],
         [digitChar (ms / 100), digitChar (ms / 10 % 10), digitChar (ms % 10)]] := by
    simp [pySplitLimit, hE, hF]
  unfold to_ms
  rw [hsplit1]
  dsimp only
  rw [hsplit2]
  dsimp only
  rw [pyIntOf, pyIntOf, pyIntOf, pyIntOf,
    digitsToNat_two (by omega) (by omega), digitsToNat_two (by omega) (by omega),
    digitsToNat_two (by omega) (by omega), digitsToNat_three (by omega) (by omega) (by omega)]
  push_cast
  omega

/-! ## Evaluating the timestamp pattern on a formatted timing line -/

theorem matchDigits_two {x y : Char} (hx : x.isDigit = true) (hy : y.isDigit = true)
    (r : List Char) : matchDigits 2 (x :: y :: r) = some ([x, y], r) := by
  rw [matchDigits]
  rw [if_pos (by simp [hx, hy])]
  rfl

theorem matchDigits_three {x y z : Char} (hx : x.isDigit = true) (hy : y.isDigit = true)
    (hz : z.isDigit = true) (r : List Char) :
    matchDigits 3 (x :: y :: z :: r) = some ([x, y, z], r) := by
  rw [matchDigits]
  rw [if_pos (by simp [hx, hy, hz])]
  rfl

theorem matchTsGroup_explicit {a b c d e f g h i : Char} (r : List Char)
    (ha : a.isDigit = true) (hb : b.isDigit = true) (hc : c.isDigit = true)
    (hd : d.isDigit = true) (he : e.isDigit = true) (hf : f.isDigit = true)
    (hg : g.isDigit = true) (hh : h.isDigit = true) (hi : i.isDigit = true) :
    matchTsGroup (a :: b :: ':' :: c :: d :: ':' :: e :: f :: ',' :: g :: h :: i :: r)
      = some ([a, b, ':', c, d, ':', e, f, ',', g, h, i], r) := by
  rw [matchTsGroup, matchDigits_two ha hb]
  simp only [Option.bind_eq_bind, Option.some_bind]
  rw [matchLit, if_pos rfl]
  simp only [Option.some_bind]
  rw [matchDigits_two hc hd]
  simp only [Option.some_bind]
  rw [matchLit, if_pos rfl]
  simp only [Option.some_bind]
  rw [matchDigits_two he hf]
  simp only [Option.some_bind]
  rw [matchLit, if_pos rfl]
  simp only [Option.some_bind]
  rw [matchDigits_three hg hh hi]
  simp only [Option.some_bind]
  rfl

theorem tsPatternMatch_explicit
    {a b c d e f g h i a' b' c' d' e' f' g' h' i' : Char}
    (ha : a.isDigit = true) (hb : b.isDigit = true) (hc : c.isDigit = true)
    (hd : d.isDigit = true) (he : e.isDigit = true) (hf : f.isDigit = true)
    (hg : g.isDigit = true) (hh : h.isDigit = true) (hi : i.isDigit = true)
    (ha' : a'.isDigit = true) (hb' : b'.isDigit = true) (hc' : c'.isDigit = true)
    (hd' : d'.isDigit = true) (he' : e'.isDigit = true) (hf' : f'.isDigit = true)
    (hg' : g'.isDigit = true) (hh' : h'.isDigit = true) (hi' : i'.isDigit = true) :
    tsPatternMatch ([a, b, ':', c, d, ':', e, f, ',', g, h, i]
        ++ ' ' :: '-' :: '-' :: '>' :: ' '
          :: [a', b', ':', c', d', ':', e', f', ',', g', h', i'])
      = some ([a, b, ':', c, d, ':', e, f, ',', g, h, i],
              [a', b', ':', c', d', ':', e', f', ',', g', h', i']) := by
  rw [tsPatternMatch]
  simp only [List.cons_append, List.nil_append]
  rw [matchTsGroup_explicit _ ha hb hc hd he hf hg hh hi]
  simp only [Option.bind_eq_bind, Option.some_bind]
  rw [List.dropWhile_cons_of_pos (by decide), List.dropWhile_cons_of_neg (by decide)]
  rw [matchLit, if_pos rfl]
  simp only [Option.some_bind]
  rw [matchLit, if_pos rfl]
  simp only [Option.some_bind]
  rw [matchLit, if_pos rfl]
  simp only [Option.some_bind]
  rw [List.dropWhile_cons_of_pos (by decide),
    List.dropWhile_cons_of_neg (by simp [isDigit_not_space ha'])]
  rw [show (a' :: b' :: ':' :: c' :: d' :: ':' :: e' :: f' :: ',' :: g' :: h' :: i' :: [])
      = a' :: b' :: ':' :: c' :: d' :: ':' :: e' :: f' :: ',' :: g' :: h' :: i' :: ([] : List Char)
      from rfl]
  rw [matchTsGroup_explicit _ ha' hb' hc' hd' he' hf' hg' hh' hi']
  simp only [Option.some_bind]

/-- The decoder's per-block body recovers the cue of an encodable line
from its encoded block core. -/
theorem parseBlock_srtBlockCore (idx : Nat) {l : SrtLine} (henc : srtLineEncodable l) :
    parseBlock (srtBlockCore idx l) = some (toCue l) := by
  obtain ⟨h0s, hbs, h0e, hbe, htne, hstrip, hnl, hcr⟩ := henc
  obtain ⟨H1, M1, S1, ms1, hH1, hM1, hS1, hms1, hval1, hfmt1⟩ :=
    format_timestamp_bounded h0s hbs
  obtain ⟨H2, M2, S2, ms2, hH2, hM2, hS2, hms2, hval2, hfmt2⟩ :=
    format_timestamp_bounded h0e hbe
  have hsplit : pySplitChar '\n' (srtBlockCore idx l)
      = [natToDigits idx, tsLine l, l.text] := by
    rw [srtBlockCore, List.append_assoc, List.cons_append, hstrip,
      pySplitChar_append_sep (nl_not_mem_natToDigits idx),
      pySplitChar_append_sep (nl_not_mem_tsLine l),
      pySplitChar_no_sep hnl]
  have htsstrip : pyStrip (tsLine l) = tsLine l := by
    refine pyStrip_eq_self_of_ends
      (c := digitChar (H1 / 10)) (d := digitChar (ms2 % 10)) ?_ ?_ ?_ ?_
    · rw [tsLine, hfmt1]
      rfl
    · exact isDigit_not_space (digitChar_isDigit (by omega))
    · rw [tsLine, List.getLast?_append_of_ne_nil _ (List.cons_ne_nil _ _), hfmt2]
      rfl
    · exact isDigit_not_space (digitChar_isDigit (by omega))
  obtain ⟨cx, dx, hhx, hcx, hlx, hdx⟩ := pyStrip_ends l.text (by rw [hstrip]; exact htne)
  rw [hstrip] at hlx
  unfold parseBlock
  rw [hsplit]
  dsimp only
  rw [pyStrip_natToDigits]
  rw [if_pos (show pyIsDigitStr (natToDigits idx) = true ∧ ¬([tsLine l, l.text] = [])
    from ⟨pyIsDigitStr_natToDigits idx, by simp⟩)]
  rw [if_pos (pyIsDigitStr_natToDigits idx)]
  simp only [List.headD_cons]
  rw [htsstrip, tsLine, hfmt1, hfmt2]
  rw [tsPatternMatch_explicit
    (digitChar_isDigit (by omega)) (digitChar_isDigit (by omega))
    (digitChar_isDigit (by omega)) (digitChar_isDigit (by omega))
    (digitChar_isDigit (by omega)) (digitChar_isDigit (by omega))
    (digitChar_isDigit (by omega)) (digitChar_isDigit (by omega))
    (digitChar_isDigit (by omega)) (digitChar_isDigit (by omega))
    (digitChar_isDigit (by omega)) (digitChar_isDigit (by omega))
    (digitChar_isDigit (by omega)) (digitChar_isDigit (by omega))
    (digitChar_isDigit (by omega)) (digitChar_isDigit (by omega))
    (digitChar_isDigit (by omega)) (digitChar_isDigit (by omega))]
  dsimp only
  simp only [List.drop_succ_cons, List.drop_zero]
  rw [List.filter_cons_of_pos (by simp [hstrip, htne]), List.filter_nil,
    List.map_cons, List.map_nil, pyRStrip_eq_self_of_last hlx hdx]
  rw [to_ms_digits hH1 (by omega) (by omega) hms1,
    to_ms_digits hH2 (by omega) (by omega) hms2,
    ← hval1, ← hval2]
  rw [toCue]
  have hjoin : pyJoin ['\n'] [l.text] = l.text := by
    rw [pyJoin]
    simp [List.intercalate]
  rw [hjoin]

/-- A `filterMap` that always succeeds is a `map`. -/
theorem filterMap_eq_map_of_some {α β : Type _} (f : α → Option β) (g : α → β) :
    ∀ (l : List α), (∀ a ∈ l, f a = some (g a)) → l.filterMap f = l.map g := by
  intro l h
  induction l with
  | nil => rfl
  | cons x t ih =>
    rw [List.filterMap_cons_some (h x (List.mem_cons_self x t)), List.map_cons,
      ih (fun a ha => h a (List.mem_cons_of_mem x ha))]

/-- The decoder's cue loop recovers the encoded lines' cues in input
order (before the decoder's final sort). -/
theorem parse_srt_cues_write (l0 : SrtLine) (ls : List SrtLine)
    (henc : ∀ l ∈ l0 :: ls, srtLineEncodable l) :
    parse_srt_cues (parse_srt_normalize (write_srt_text (l0 :: ls)))
      = (l0 :: ls).map toCue := by
  rw [parse_srt_cues, parse_srt_blocks_write l0 ls henc, List.filterMap_map]
  rw [filterMap_eq_map_of_some _ (fun p : Nat × SrtLine => toCue p.2) _ ?_]
  · rw [show (fun p : Nat × SrtLine => toCue p.2) = toCue ∘ Prod.snd from rfl,
      ← List.map_map, List.enum_map_snd]
  · intro p hp
    exact parseBlock_srtBlockCore (p.1 + 1) (henc _ (snd_mem_of_mem_enum hp))

/-- C1 (amended): for every chronologically sorted list of lines whose
start/end are exact millisecond values below 100 hours and whose text is
a single non-empty stripped line, decoding the encoder's output yields
cues with identical `(startMs, endMs, text)` triples — the exact
millisecond values of the input — in the same order as the input
lines. -/
theorem parse_srt_write_srt_roundtrip (lines : List SrtLine)
    (henc : ∀ l ∈ lines, srtLineEncodable l)
    (hexact : ∀ l ∈ lines, 1000 % l.start.den = 0 ∧ 1000 % l.stop.den = 0)
    (hsorted : lines.Pairwise (fun a b => a.start ≤ b.start)) :
    parse_srt (write_srt_text lines) = lines.map toCue
    ∧ ∀ l ∈ lines, ((toCue l).startMs : ℚ) = l.start * 1000
        ∧ ((toCue l).endMs : ℚ) = l.stop * 1000 := by
  refine ⟨?_, ?_⟩
  · cases lines with
    | nil => rfl
    | cons l0 ls =>
      have hwne : write_srt_text (l0 :: ls) ≠ [] := by
        rw [write_srt_text_structure]
        intro h
        exact absurd (List.append_eq_nil.1 h).2 (List.cons_ne_nil _ _)
      have hcues := parse_srt_cues_write l0 ls henc
      have htextne : parse_srt_normalize (write_srt_text (l0 :: ls)) ≠ [] := by
        intro h
        have hblocks := parse_srt_blocks_write l0 ls henc
        rw [h] at hblocks
        have hpb : parse_srt_blocks [] = [] := by decide
        rw [hpb] at hblocks
        exact List.noConfusion hblocks
      rw [parse_srt, if_neg hwne]
      dsimp only
      rw [if_neg htextne, hcues]
      have hmono : ∀ a ∈ l0 :: ls, ∀ b ∈ l0 :: ls, a.start ≤ b.start →
          (toCue a).startMs ≤ (toCue b).startMs := by
        intro a ha b hb hab
        have h1 := pyRoundTimes1000_exact (hexact a ha).1
        have h2 := pyRoundTimes1000_exact (hexact b hb).1
        show pyRoundTimes1000 a.start ≤ pyRoundTimes1000 b.start
        have hq : ((pyRoundTimes1000 a.start : ℤ) : ℚ) ≤ ((pyRoundTimes1000 b.start : ℤ) : ℚ) := by
          rw [h1, h2]
          exact mul_le_mul_of_nonneg_right hab (by norm_num)
        exact_mod_cast hq
      have hsorted' : List.Sorted (fun a b : Cue => a.startMs ≤ b.startMs)
          ((l0 :: ls).map toCue) := by
        rw [List.Sorted, List.pairwise_map]
        refine List.Pairwise.imp_of_mem ?_ hsorted
        intro a b ha hb hab
        exact hmono a ha b hb hab
      exact List.Sorted.insertionSort_eq hsorted'
  · intro l hl
    exact ⟨pyRoundTimes1000_exact (hexact l hl).1, pyRoundTimes1000_exact (hexact l hl).2⟩

/-- C1 (witness): the round trip instantiated on two concrete encodable
lines. -/
theorem parse_srt_write_srt_roundtrip_witness :
    (∀ l ∈ ([⟨"Hello".toList, 0, 1⟩, ⟨"World".toList, 2, 3⟩] : List SrtLine),
        srtLineEncodable l)
    ∧ (∀ l ∈ ([⟨"Hello".toList, 0, 1⟩, ⟨"World".toList, 2, 3⟩] : List SrtLine),
        1000 % l.start.den = 0 ∧ 1000 % l.stop.den = 0)
    ∧ ([⟨"Hello".toList, 0, 1⟩, ⟨"World".toList, 2, 3⟩] : List SrtLine).Pairwise
        (fun a b => a.start ≤ b.start)
    ∧ (parse_srt (write_srt_text [⟨"Hello".toList, 0, 1⟩, ⟨"World".toList, 2, 3⟩])
        = ([⟨"Hello".toList, 0, 1⟩, ⟨"World".toList, 2, 3⟩] : List SrtLine).map toCue
      ∧ ∀ l ∈ ([⟨"Hello".toList, 0, 1⟩, ⟨"World".toList, 2, 3⟩] : List SrtLine),
          ((toCue l).startMs : ℚ) = l.start * 1000
          ∧ ((toCue l).endMs : ℚ) = l.stop * 1000) :=
  ⟨by decide, by decide, by decide,
   parse_srt_write_srt_roundtrip [⟨"Hello".toList, 0, 1⟩, ⟨"World".toList, 2, 3⟩]
     (by decide) (by decide) (by decide)⟩

/-- C1 (counterexample): a line starting at 100 hours has millisecond-
exact timestamps and single-line text, yet the decoder rejects the
encoded block — the encoder emits a three-digit hour field that the
decoder's `\d{2}` timestamp pattern does not match — so the round trip
loses the cue. -/
theorem parse_srt_write_srt_roundtrip_counterexample :
    parse_srt (write_srt_text [⟨"X".toList, 360000, 360001⟩]) = []
    ∧ ([⟨"X".toList, 360000, 360001⟩] : List SrtLine).map toCue ≠ [] :=
  ⟨by decide, by decide⟩

/-- C6 (amended): the `src/app/main.py` encoder `write_srt` emits cue
blocks in exactly the input order (the decoder's loop recovers the cues
in input order, before any sort), but the `src/main.py` encoder
`write_srt_file` first re-sorts the lines ascending by `startTime`: its
output is invariant under pre-sorting the input. -/
theorem write_srt_order_preservation :
    (∀ (l0 : SrtLine) (ls : List SrtLine), (∀ l ∈ l0 :: ls, srtLineEncodable l) →
      parse_srt_cues (parse_srt_normalize (write_srt_text (l0 :: ls)))
        = (l0 :: ls).map toCue)
    ∧ ∀ lines : List LinePayload,
        write_srt_file_text lines
          = write_srt_file_text
              (lines.insertionSort (fun a b => a.startTime ≤ b.startTime)) := by
  refine ⟨parse_srt_cues_write, ?_⟩
  intro lines
  haveI hTotal : IsTotal LinePayload (fun a b => a.startTime ≤ b.startTime) :=
    ⟨fun a b => le_total _ _⟩
  haveI hTrans : IsTrans LinePayload (fun a b => a.startTime ≤ b.startTime) :=
    ⟨fun _ _ _ hab hbc => le_trans hab hbc⟩
  rw [write_srt_file_text, write_srt_file_text,
    List.Sorted.insertionSort_eq (List.sorted_insertionSort _ lines)]

/-- C6 (witness): order preservation of `write_srt` on a concrete
reverse-chronological pair, and sort-invariance of `write_srt_file` on a
concrete line. -/
theorem write_srt_order_preservation_witness :
    ((∀ l ∈ ([⟨"B".toList, 2, 3⟩, ⟨"A".toList, 0, 1⟩] : List SrtLine), srtLineEncodable l)
      ∧ parse_srt_cues (parse_srt_normalize
            (write_srt_text [⟨"B".toList, 2, 3⟩, ⟨"A".toList, 0, 1⟩]))
          = ([⟨"B".toList, 2, 3⟩, ⟨"A".toList, 0, 1⟩] : List SrtLine).map toCue)
    ∧ write_srt_file_text [⟨"B".toList, 2, 3, none⟩]
        = write_srt_file_text
            ([⟨"B".toList, 2, 3, none⟩].insertionSort
              (fun a b => a.startTime ≤ b.startTime)) :=
  ⟨⟨by decide,
    write_srt_order_preservation.1 ⟨"B".toList, 2, 3⟩ [⟨"A".toList, 0, 1⟩] (by decide)⟩,
   write_srt_order_preservation.2 [⟨"B".toList, 2, 3, none⟩]⟩

/-- C6 (counterexample): `write_srt_file` does re-sort — its output on a
reverse-chronological input equals its output on the sorted input, so
the emitted block order cannot follow the input order for both. -/
theorem write_srt_file_reorders :
    write_srt_file_text [⟨"B".toList, 2, 3, none⟩, ⟨"A".toList, 0, 1, none⟩]
      = write_srt_file_text [⟨"A".toList, 0, 1, none⟩, ⟨"B".toList, 2, 3, none⟩]
    ∧ ([⟨"B".toList, 2, 3, none⟩, ⟨"A".toList, 0, 1, none⟩] : List LinePayload)
        ≠ [⟨"A".toList, 0, 1, none⟩, ⟨"B".toList, 2, 3, none⟩] :=
  ⟨by decide, by decide⟩

/-! ## `re.sub` on literal patterns: occurrence analysis -/

theorem subAllCIFuel_no_occurrence (pat repl : List Char) :
    ∀ (s : List Char) (fuel : Nat), s.length ≤ fuel →
      (∀ t, t <:+ s → startsWithCI pat t = false) →
      subAllCIFuel pat repl fuel s = s := by
  intro s
  induction s with
  | nil =>
    intro fuel _ _
    cases fuel <;> rfl
  | cons c rest ih =>
    intro fuel hf hno
    cases fuel with
    | zero => simp at hf
    | succ f =>
      have hcond : ¬(pat ≠ [] ∧ startsWithCI pat (c :: rest) = true) := by
        rintro ⟨-, hmatch⟩
        rw [hno (c :: rest) (List.suffix_refl _)] at hmatch
        cases hmatch
      rw [subAllCIFuel, if_neg hcond,
        ih f (by simpa using hf)
          (fun t ht => hno t (ht.trans (List.suffix_cons c rest)))]

/-- `re.sub` is the identity when the pattern occurs nowhere. -/
theorem subAllCI_no_occurrence {pat repl s : List Char}
    (hno : ∀ t, t <:+ s → startsWithCI pat t = false) : subAllCI pat repl s = s :=
  subAllCIFuel_no_occurrence pat repl s s.length (le_refl _) hno

/-- A pattern matches itself case-insensitively. -/
theorem startsWithCI_self_append (p : List Char) :
    ∀ (x : List Char), startsWithCI p (p ++ x) = true := by
  induction p with
  | nil => intro x; rfl
  | cons c ps ih =>
    intro x
    rw [List.cons_append, startsWithCI]
    simp [charCI, ih x]

theorem subAllCIFuel_single_occurrence (pat repl : List Char) (hpat : pat ≠ []) :
    ∀ (a b : List Char) (fuel : Nat),
      (a ++ pat ++ b).length ≤ fuel →
      (∀ t, t <:+ a ++ pat ++ b → pat.length + b.length < t.length →
        startsWithCI pat t = false) →
      (∀ t, t <:+ b → startsWithCI pat t = false) →
      subAllCIFuel pat repl fuel (a ++ pat ++ b) = a ++ repl ++ b := by
  intro a
  induction a with
  | nil =>
    intro b fuel hf h1 h2
    obtain ⟨c, prest, rfl⟩ := List.exists_cons_of_ne_nil hpat
    rw [List.nil_append] at hf ⊢
    cases fuel with
    | zero => simp at hf
    | succ f =>
      rw [List.cons_append, subAllCIFuel,
        if_pos ⟨hpat, by rw [← List.cons_append]; exact startsWithCI_self_append _ _⟩]
      have hlen : (c :: prest).length - 1 = prest.length := by simp
      rw [hlen, List.drop_left]
      rw [subAllCIFuel_no_occurrence _ _ b f ?_ h2]
      · rw [List.nil_append]
      · have := hf
        simp only [List.length_cons, List.length_append] at this
        omega
  | cons c a' ih =>
    intro b fuel hf h1 h2
    cases fuel with
    | zero =>
      simp only [List.cons_append, List.length_cons] at hf
      omega
    | succ f =>
      have hshape : (c :: a') ++ pat ++ b = c :: (a' ++ pat ++ b) := by
        rw [List.cons_append, List.cons_append]
      rw [hshape] at hf ⊢
      have hcond : ¬(pat ≠ [] ∧ startsWithCI pat (c :: (a' ++ pat ++ b)) = true) := by
        rintro ⟨-, hmatch⟩
        have hlong : pat.length + b.length < (c :: (a' ++ pat ++ b)).length := by
          simp only [List.length_cons, List.length_append]
          omega
        rw [h1 (c :: (a' ++ pat ++ b)) (by rw [hshape]) hlong]
          at hmatch
        cases hmatch
      rw [subAllCIFuel, if_neg hcond,
        ih b f (by simpa using hf)
          (fun t ht hlt => h1 t (by rw [hshape]; exact ht.trans (List.suffix_cons _ _)) hlt)
          h2]
      rw [List.cons_append, List.cons_append]

/-- `re.sub` on a pattern with exactly one (case-insensitive) occurrence
replaces exactly that occurrence. -/
theorem subAllCI_single_occurrence {pat : List Char} (repl : List Char) (hpat : pat ≠ [])
    (a b : List Char)
    (h1 : ∀ t, t <:+ a ++ pat ++ b → pat.length + b.length < t.length →
      startsWithCI pat t = false)
    (h2 : ∀ t, t <:+ b → startsWithCI pat t = false) :
    subAllCI pat repl (a ++ pat ++ b) = a ++ repl ++ b :=
  subAllCIFuel_single_occurrence pat repl hpat a b _ (le_refl _) h1 h2

/-- C3 (amended): in `captions_dir` mode `re.sub` replaces every
occurrence of the segment patterns, not only the first; when the path
contains no `/ingest/originals/` segment and exactly one
(case-insensitive) `/ingest/` occurrence, exactly one substitution is
applied, followed by the trailing-extension replacement. -/
theorem derive_srt_url_captions_dir_single (u : Url) (a b : List Char)
    (hpath : u.path = a ++ patIngest ++ b)
    (hsuffix : SUPPORTED_VIDEO_SUFFIXES.contains (pyLower (pathSuffix u.path)) = true)
    (h3 : ∀ t ∈ u.path.tails, startsWithCI patIngestOriginals t = false)
    (h1 : ∀ t ∈ u.path.tails, patIngest.length + b.length < t.length →
      startsWithCI patIngest t = false)
    (h2 : ∀ t ∈ b.tails, startsWithCI patIngest t = false) :
    derive_srt_url u modeCaptionsDir
      = .ok { u with query := [], fragment := [],
                     path := reSubSuffixCI (pyLower (pathSuffix u.path)) srtSuffix
                       (a ++ replCaptions ++ b) } := by
  rw [derive_srt_url]
  dsimp only
  rw [if_neg (by rw [hsuffix]; simp)]
  rw [if_neg (by decide : ¬(modeCaptionsDir = modeSideBySide)), if_pos rfl]
  have hp1 : subAllCI patIngestOriginals replCaptions u.path = u.path :=
    subAllCI_no_occurrence (fun t ht => h3 t ((List.mem_tails t u.path).2 ht))
  rw [hp1, hpath,
    subAllCI_single_occurrence replCaptions (by decide) a b
      (fun t ht hlt => h1 t ((List.mem_tails t u.path).2 (by rw [hpath]; exact ht)) hlt)
      (fun t ht => h2 t ((List.mem_tails t b).2 ht))]

/-- C3 (witness): the single-occurrence rewrite instantiated on the
URL `http://host/media/Proj/ingest/demo.mp4`. -/
theorem derive_srt_url_captions_dir_single_witness :
    (⟨"http".toList, "host".toList, "/media/Proj/ingest/demo.mp4".toList,
        [], [], []⟩ : Url).path
      = "/media/Proj".toList ++ patIngest ++ "demo.mp4".toList
    ∧ SUPPORTED_VIDEO_SUFFIXES.contains
        (pyLower (pathSuffix (⟨"http".toList, "host".toList,
          "/media/Proj/ingest/demo.mp4".toList, [], [], []⟩ : Url).path)) = true
    ∧ derive_srt_url
        ⟨"http".toList, "host".toList, "/media/Proj/ingest/demo.mp4".toList, [], [], []⟩
        modeCaptionsDir
      = .ok { (⟨"http".toList, "host".toList, "/media/Proj/ingest/demo.mp4".toList,
                 [], [], []⟩ : Url) with
              query := [], fragment := [],
              path := reSubSuffixCI
                (pyLower (pathSuffix (⟨"http".toList, "host".toList,
                  "/media/Proj/ingest/demo.mp4".toList, [], [], []⟩ : Url).path))
                srtSuffix
                ("/media/Proj".toList ++ replCaptions ++ "demo.mp4".toList) } :=
  ⟨by decide, by decide,
   derive_srt_url_captions_dir_single
     ⟨"http".toList, "host".toList, "/media/Proj/ingest/demo.mp4".toList, [], [], []⟩
     "/media/Proj".toList "demo.mp4".toList
     (by decide) (by decide) (by decide) (by decide) (by decide)⟩

/-- C3 (counterexample): a path with two `/ingest/` segments has both
rewritten to `/captions/` — `re.sub` is not limited to the first
occurrence, so more than one segment substitution is performed. -/
theorem derive_srt_url_rewrites_all :
    derive_srt_url
        ⟨"http".toList, "host".toList, "/ingest/a/ingest/b.mp4".toList, [], [], []⟩
        modeCaptionsDir
      = .ok ⟨"http".toList, "host".toList, "/captions/a/captions/b.srt".toList,
          [], [], []⟩ := by
  decide

/-- A case-insensitive prefix match on a longer pattern implies one on
its prefix. -/
theorem startsWithCI_of_append {p q s : List Char} (h : startsWithCI (p ++ q) s = true) :
    startsWithCI p s = true := by
  induction p generalizing s with
  | nil => rfl
  | cons c ps ih =>
    cases s with
    | nil =>
      rw [List.cons_append, startsWithCI] at h
      cases h
    | cons x xs =>
      rw [List.cons_append, startsWithCI] at h
      rw [startsWithCI]
      simp only [Bool.and_eq_true] at h ⊢
      exact ⟨h.1, ih h.2⟩

/-- C10 (amended): extension matching is case-insensitive via
`str.lower()` — a URL whose pathlib suffix lower-cases to an allowed
video extension and ends the path is accepted in both modes (here on an
ingest-free path) and the trailing extension is replaced by `.srt`; but
a path whose last component opens with the dot (a pathlib hidden file,
e.g. `/v/.MP4`) has an empty suffix and is rejected although the path
ends in a case variant of an allowed extension. -/
theorem derive_srt_url_case_insensitive (u : Url)
    (hsuffix : SUPPORTED_VIDEO_SUFFIXES.contains (pyLower (pathSuffix u.path)) = true)
    (hends : endsWithCI (pyLower (pathSuffix u.path)) u.path = true)
    (hingest : ∀ t ∈ u.path.tails, startsWithCI patIngest t = false) :
    derive_srt_url u modeSideBySide
      = .ok { u with query := [], fragment := [],
                     path := u.path.take
                         (u.path.length - (pyLower (pathSuffix u.path)).length)
                       ++ srtSuffix }
    ∧ derive_srt_url u modeCaptionsDir
      = .ok { u with query := [], fragment := [],
                     path := u.path.take
                         (u.path.length - (pyLower (pathSuffix u.path)).length)
                       ++ srtSuffix } := by
  have hno_ing : ∀ t, t <:+ u.path → startsWithCI patIngest t = false :=
    fun t ht => hingest t ((List.mem_tails t u.path).2 ht)
  have hno_orig : ∀ t, t <:+ u.path → startsWithCI patIngestOriginals t = false := by
    intro t ht
    by_contra hc
    rw [Bool.not_eq_false] at hc
    have hsplit : patIngestOriginals = patIngest ++ "originals/".toList := by decide
    rw [hsplit] at hc
    have h2 := startsWithCI_of_append hc
    rw [hno_ing t ht] at h2
    cases h2
  constructor
  · rw [derive_srt_url]
    dsimp only
    rw [if_neg (by rw [hsuffix]; simp), if_pos rfl, reSubSuffixCI, if_pos hends]
  · rw [derive_srt_url]
    dsimp only
    rw [if_neg (by rw [hsuffix]; simp),
      if_neg (by decide : ¬(modeCaptionsDir = modeSideBySide)), if_pos rfl,
      subAllCI_no_occurrence hno_orig, subAllCI_no_occurrence hno_ing,
      reSubSuffixCI, if_pos hends]

/-- C10 (witness): the case-insensitive acceptance and replacement
instantiated on `http://host/media/Proj/clip.MP4`. -/
theorem derive_srt_url_case_insensitive_witness :
    SUPPORTED_VIDEO_SUFFIXES.contains
        (pyLower (pathSuffix (⟨"http".toList, "host".toList,
          "/media/Proj/clip.MP4".toList, [], [], []⟩ : Url).path)) = true
    ∧ endsWithCI
        (pyLower (pathSuffix (⟨"http".toList, "host".toList,
          "/media/Proj/clip.MP4".toList, [], [], []⟩ : Url).path))
        (⟨"http".toList, "host".toList, "/media/Proj/clip.MP4".toList,
          [], [], []⟩ : Url).path = true
    ∧ derive_srt_url
        ⟨"http".toList, "host".toList, "/media/Proj/clip.MP4".toList, [], [], []⟩
        modeSideBySide
      = .ok { (⟨"http".toList, "host".toList, "/media/Proj/clip.MP4".toList,
               [], [], []⟩ : Url) with
              query := [], fragment := [],
              path := ("/media/Proj/clip.MP4".toList : List Char).take
                  (("/media/Proj/clip.MP4".toList : List Char).length
                    - (pyLower (pathSuffix (⟨"http".toList, "host".toList,
                        "/media/Proj/clip.MP4".toList, [], [], []⟩ : Url).path)).length)
                ++ srtSuffix } :=
  ⟨by decide, by decide,
   (derive_srt_url_case_insensitive
     ⟨"http".toList, "host".toList, "/media/Proj/clip.MP4".toList, [], [], []⟩
     (by decide) (by decide) (by decide)).1⟩

/-- C10 (counterexample): `/v/.MP4` ends in the upper-case variant
`.MP4` of an allowed extension, yet pathlib's hidden-file rule makes its
suffix empty and `derive_srt_url` rejects the URL with a validation
error in both modes. -/
theorem derive_srt_url_hidden_file_rejected :
    endsWithCI ".mp4".toList "/v/.MP4".toList = true
    ∧ derive_srt_url ⟨"http".toList, "host".toList, "/v/.MP4".toList, [], [], []⟩
        modeSideBySide
      = .error ("Unsupported media extension: ".toList)
    ∧ derive_srt_url ⟨"http".toList, "host".toList, "/v/.MP4".toList, [], [], []⟩
        modeCaptionsDir
      = .error ("Unsupported media extension: ".toList) :=
  ⟨by decide, by decide, by decide⟩
